import Mathlib

/-!
# Elastos.ELA.SPV: a shallow embedding of parts of the SPV client

Go strings are embedded as Lean strings (sequences of Unicode scalar values; the
files the program reads are taken to be valid UTF-8), Go slices as lists, Go
`int` values as integers, and a Go run-time panic or returned `error` as the
`error` side of `Except`.
-/

namespace ElaSPV

/-! ## The parts of the Go standard library the embedded code calls -/

/-- The predicate `unicode.IsSpace` of Go: the Latin-1 spaces and the code points
with the Unicode White_Space property. -/
def isSpace (c : Char) : Bool :=
  c = '\t' || c = '\n' || c.val = 0x0B || c.val = 0x0C || c = '\r' || c = ' ' ||
  c.val = 0x85 || c.val = 0xA0 || c.val = 0x1680 ||
  (decide (0x2000 ≤ c.val) && decide (c.val ≤ 0x200A)) ||
  c.val = 0x2028 || c.val = 0x2029 || c.val = 0x202F || c.val = 0x205F || c.val = 0x3000

/-- Characters of a string with the leading and trailing white space removed. -/
def trimSpaceChars (l : List Char) : List Char :=
  ((l.dropWhile isSpace).reverse.dropWhile isSpace).reverse

/-- The function `strings.TrimSpace`. -/
def TrimSpace (s : String) : String := ⟨trimSpaceChars s.data⟩

/-- Pieces of a character list between the occurrences of a one-character separator:
`n` separators give `n + 1` pieces, and the empty list gives one empty piece. -/
def splitChars (sep : Char) : List Char → List (List Char)
  | [] => [[]]
  | c :: cs =>
    if c = sep then [] :: splitChars sep cs
    else
      match splitChars sep cs with
      | [] => [[c]]
      | piece :: pieces => (c :: piece) :: pieces

/-- The function `strings.Split` for a separator of one character (the program
only splits at a newline and at a comma). -/
def Split (s : String) (sep : Char) : List String :=
  (splitChars sep s.data).map String.mk

/-- Characters of the text of `saveCached`. -/
def textChars (ls : List (List Char)) : List Char :=
  ls.flatMap (fun a => a ++ ['\n'])

/-- A character list that begins with a character that is not white space. -/
def StartsSolid (l : List Char) : Prop := ∃ c cs, l = c :: cs ∧ isSpace c = false

/-- A non-empty list of characters none of which is white space. -/
def Solid (a : List Char) : Prop := a ≠ [] ∧ ∀ c ∈ a, isSpace c = false

/-! ## net/addrmanager.go -/

/-- The struct `AddrManager`; `connected` lists the keys of the Go map (every
key is stored with the same value, the byte 'c'). -/
structure AddrManager where
  seeds : List String
  cached : List String
  connected : List String
deriving DecidableEq, Repr

/-- What the operating system does with the next attempt to rewrite the cache
file: both calls succeed, `os.OpenFile` fails, or `file.Write` fails after
`n` characters have been written. -/
inductive WriteOutcome where
  | ok
  | openFails
  | writeFails (n : Nat)
deriving DecidableEq, Repr

namespace AddrManager

/-- The method `isSeed`: a linear search of `seeds`. -/
def isSeed (am : AddrManager) (addr : String) : Bool :=
  am.seeds.any (fun seed => seed == addr)

/-- The method `isCached`: a linear search of `cached`. -/
def isCached (am : AddrManager) (addr : String) : Bool :=
  am.cached.any (fun cached => cached == addr)

/-- The method `isConnected`: whether the key is present in the map. -/
def isConnected (am : AddrManager) (addr : String) : Bool :=
  am.connected.any (fun key => key == addr)

/-- Text that `saveCached` builds: every address followed by a newline. -/
def cachedText (cached : List String) : String :=
  cached.foldl (fun text addr => text ++ addr ++ "\n") ""

/-- The method `saveCached`, as a function from the content of the file
`addrs.cache` (`none` when the file does not exist) to its content afterwards.
The file is opened with `O_CREATE|O_WRONLY|O_TRUNC`; a failure is only printed. -/
def saveCached (am : AddrManager) (os : WriteOutcome) (file : Option String) : Option String :=
  match os with
  | .openFails => file
  | .writeFails n => some ⟨(cachedText am.cached).data.take n⟩
  | .ok => some (cachedText am.cached)

/-- The function `newAddrManager`; `file` is the content of `addrs.cache`, `none`
when `ioutil.ReadFile` fails. -/
def newAddrManager (seeds : List String) (file : Option String) : AddrManager :=
  let am : AddrManager := { seeds := [], cached := [], connected := [] }
  let am := seeds.foldl (fun am addr => { am with seeds := am.seeds ++ [addr] }) am
  match file with
  | none => am
  | some data =>
    let addrs := Split (TrimSpace data) '\n'
    addrs.foldl
      (fun am addr =>
        if (TrimSpace addr).length ≠ 0 then { am with cached := am.cached ++ [addr] } else am)
      am

/-- Insertion of a key in the map `addrMap`, whose keys are kept in the order of
their first insertion. -/
def mapInsert (keys : List String) (key : String) : List String :=
  if key ∈ keys then keys else keys ++ [key]

/-- Keys of `addrMap` after the two loops that fill it in `GetIdleAddrs`. -/
def addrMapKeys (am : AddrManager) : List String :=
  let addrMap := am.seeds.foldl
    (fun addrMap seed => if am.isConnected seed then addrMap else mapInsert addrMap seed) []
  am.cached.foldl
    (fun addrMap cache => if am.isConnected cache then addrMap else mapInsert addrMap cache)
    addrMap

/-- The loop `for addr := range addrMap` of `GetIdleAddrs` over the keys in the
order the map yields them; a write outside `randAddrs` is the Go panic. -/
def idleLoop : List String → Int → List String → Except String (List String)
  | [], _, randAddrs => .ok randAddrs
  | addr :: rest, count, randAddrs =>
    let count := count - 1
    if count < 0 ∨ (randAddrs.length : Int) ≤ count then
      .error "index out of range"
    else
      let randAddrs := randAddrs.set count.toNat addr
      if count = 0 then .ok randAddrs else idleLoop rest count randAddrs

/-- The method `GetIdleAddrs`; `order` is the order in which the Go run time
iterates over `addrMap` in this call. -/
def GetIdleAddrs (am : AddrManager) (order : List String) (count : Int) :
    Except String (List String) :=
  let totalAddrs : Int := (addrMapKeys am).length
  let count := if count > totalAddrs then totalAddrs else count
  if count < 0 then .error "makeslice: len out of range"
  else idleLoop order count (List.replicate count.toNat "")

/-- The method `AddAddr`, on the manager and the cache file. -/
def AddAddr (am : AddrManager) (os : WriteOutcome) (file : Option String) (addr : String) :
    AddrManager × Option String :=
  let am := { am with connected := mapInsert am.connected addr }
  if !am.isSeed addr && !am.isCached addr then
    let am := { am with cached := am.cached ++ [addr] }
    (am, am.saveCached os file)
  else (am, file)

/-- The method `DisconnectedAddr`: `delete(am.connected, addr)`. -/
def DisconnectedAddr (am : AddrManager) (addr : String) : AddrManager :=
  { am with connected := am.connected.filter (fun key => key != addr) }

/-- The loop of `DiscardAddr` from index `i` on: `before` holds `cached[:i]`
and the list argument `cached[i:]`; the result is the new slice when an entry
equal to `addr` is found. -/
def discardLoop (addr : String) (before : List String) : List String → Option (List String)
  | [] => none
  | cache :: after =>
    if cache = addr then some (before ++ after)
    else discardLoop addr (before ++ [cache]) after

/-- The method `DiscardAddr`, on the manager and the cache file. -/
def DiscardAddr (am : AddrManager) (os : WriteOutcome) (file : Option String) (addr : String) :
    AddrManager × Option String :=
  match discardLoop addr [] am.cached with
  | some cached =>
    let am := { am with cached := cached }
    (am, am.saveCached os file)
  | none => (am, file)

/-- The set (seeds ∪ cached) \ connected of idle addresses. -/
def idleSet (am : AddrManager) : Finset String :=
  (am.seeds.toFinset ∪ am.cached.toFinset) \ am.connected.toFinset

end AddrManager

/-! ## interface/proofs.go, over a model of the bolt key-value store -/

/-- Outcome of a call that does not complete: an `error` value returned to the
caller, or a Go run-time panic. -/
inductive Fault where
  | error (msg : String)
  | panic (msg : String)
deriving DecidableEq, Repr

/-- A bolt bucket: its key/value records. -/
abbrev Bucket := List (List UInt8 × List UInt8)

/-- A bolt database file: its named top-level buckets. -/
structure BoltDB where
  buckets : List (String × Bucket)
deriving DecidableEq, Repr

/-- The variable `BKTProofs`. -/
def BKTProofs : String := "Proofs"

/-- The type `MerkleProof` of package bloom enters through the block hash of a
proof (`proof.BlockHash.Bytes()`) and its `Serialize` and `Deserialize` methods. -/
structure ProofCodec (Proof : Type) where
  blockHash : Proof → List UInt8
  serialize : Proof → Except String (List UInt8)
  deserialize : List UInt8 → Except String Proof

namespace BoltDB

/-- The bolt call `tx.Bucket(name)`: `none` is the nil bucket. -/
def bucket (db : BoltDB) (name : String) : Option Bucket :=
  (db.buckets.find? (fun b => b.1 == name)).map (fun b => b.2)

/-- Replacement of the content of a bucket that exists. -/
def setBucket (db : BoltDB) (name : String) (content : Bucket) : BoltDB :=
  { buckets := db.buckets.map (fun b => if b.1 == name then (b.1, content) else b) }

/-- The bolt call `tx.CreateBucketIfNotExists(name)`. -/
def createBucketIfNotExists (db : BoltDB) (name : String) : BoltDB :=
  match db.bucket name with
  | some _ => db
  | none => { buckets := db.buckets ++ [(name, [])] }

/-- The bolt call `tx.DeleteBucket(name)`. -/
def deleteBucket (db : BoltDB) (name : String) : Except Fault BoltDB :=
  match db.bucket name with
  | none => .error (.error "bucket not found")
  | some _ => .ok { buckets := db.buckets.filter (fun b => b.1 != name) }

end BoltDB

/-- The bolt call `Bucket.Get(key)`: `none` is the nil slice. -/
def Bucket.get (b : Bucket) (key : List UInt8) : Option (List UInt8) :=
  (b.find? (fun kv => kv.1 == key)).map (fun kv => kv.2)

/-- The bolt call `Bucket.Put(key, value)`: the record of the key is replaced, or
a record is added. -/
def Bucket.put (b : Bucket) (key value : List UInt8) : Except Fault Bucket :=
  if key.length = 0 then .error (.error "key required")
  else if key.length > 32768 then .error (.error "key too large")
  else if value.length > 2147483646 then .error (.error "value too large")
  else if b.any (fun kv => kv.1 == key) then
    .ok (b.map (fun kv => if kv.1 == key then (key, value) else kv))
  else .ok (b ++ [(key, value)])

/-- The bolt call `Bucket.Delete(key)`. -/
def Bucket.delete (b : Bucket) (key : List UInt8) : Bucket :=
  b.filter (fun kv => kv.1 != key)

namespace ProofsDB

/-- The function `NewProofsDB` on the content of the file `proofs.bin`. -/
def NewProofsDB (file : BoltDB) : BoltDB :=
  file.createBucketIfNotExists BKTProofs

/-- The function `serializeProof`. -/
def serializeProof {Proof : Type} (c : ProofCodec Proof) (proof : Proof) :
    Except Fault (List UInt8) :=
  match c.serialize proof with
  | .error e => .error (.error e)
  | .ok bytes => .ok bytes

/-- The function `deserializeProof`. -/
def deserializeProof {Proof : Type} (c : ProofCodec Proof) (body : List UInt8) :
    Except Fault Proof :=
  match c.deserialize body with
  | .error e => .error (.error e)
  | .ok proof => .ok proof

/-- The function `getProof`; a method call on the nil bucket is a nil-pointer panic. -/
def getProof {Proof : Type} (c : ProofCodec Proof) (tx : BoltDB) (key : List UInt8) :
    Except Fault Proof :=
  match tx.bucket BKTProofs with
  | none => .error (.panic "invalid memory address or nil pointer dereference")
  | some b =>
    match b.get key with
    | none => .error (.error "MerkleProof does not exist in database")
    | some proofBytes => deserializeProof c proofBytes

/-- The method `ProofsDB.Put`: the database after the update transaction, which is
committed only when its function returns no error. -/
def Put {Proof : Type} (c : ProofCodec Proof) (db : BoltDB) (proof : Proof) :
    Except Fault BoltDB :=
  match serializeProof c proof with
  | .error e => .error e
  | .ok bytes =>
    match db.bucket BKTProofs with
    | none => .error (.panic "invalid memory address or nil pointer dereference")
    | some b =>
      match b.put (c.blockHash proof) bytes with
      | .error e => .error e
      | .ok b2 => .ok (db.setBucket BKTProofs b2)

/-- The method `ProofsDB.Get`. -/
def Get {Proof : Type} (c : ProofCodec Proof) (db : BoltDB) (blockHash : List UInt8) :
    Except Fault Proof :=
  getProof c db blockHash

/-- The loop `ForEach` of `GetAll`: the proofs appended before the first record
that fails to deserialize, and whether the loop returned an error. -/
def forEachProof {Proof : Type} (c : ProofCodec Proof) :
    Bucket → List Proof → List Proof × Option Fault
  | [], proofs => (proofs, none)
  | kv :: rest, proofs =>
    match deserializeProof c kv.2 with
    | .error e => (proofs, some e)
    | .ok proof => forEachProof c rest (proofs ++ [proof])

/-- The method `ProofsDB.GetAll`: the error of the read transaction is assigned
to `err` and the method ends with `return proofs, nil`. -/
def GetAll {Proof : Type} (c : ProofCodec Proof) (db : BoltDB) : Except Fault (List Proof) :=
  match db.bucket BKTProofs with
  | none => .error (.panic "invalid memory address or nil pointer dereference")
  | some b => .ok (forEachProof c b []).1

/-- The method `ProofsDB.Delete`. -/
def Delete (db : BoltDB) (blockHash : List UInt8) : Except Fault BoltDB :=
  match db.bucket BKTProofs with
  | none => .error (.panic "invalid memory address or nil pointer dereference")
  | some b => .ok (db.setBucket BKTProofs (b.delete blockHash))

/-- The method `ProofsDB.Reset`: one update transaction that calls
`tx.DeleteBucket(BKTProofs)`. -/
def Reset (db : BoltDB) : Except Fault BoltDB :=
  db.deleteBucket BKTProofs

/-- A codec for examples: a proof is a block hash with a body, stored as its body. -/
def sampleCodec (hash : List UInt8) : ProofCodec (List UInt8 × List UInt8) where
  blockHash := fun p => p.1
  serialize := fun p => .ok p.2
  deserialize := fun body => .ok (hash, body)

end ProofsDB

/-! ## cli/transaction/transaction.go -/

/-- The function `output`, as the name of the file it writes; `haveSign` and
`needSign` are the two numbers `txn.GetSignStatus()` returns. -/
def output (haveSign needSign : Int) : String :=
  let fileName := "to_be_signed"
  let fileName :=
    if needSign > haveSign then
      fileName ++ "_" ++ toString haveSign ++ "_of_" ++ toString needSign
    else if needSign = haveSign then "ready_to_send"
    else fileName
  fileName ++ ".txn"

/-! ## sdk/p2pclientimpl.go -/

/-- The fields of `msg.Version` that `OnHandshake` reads. -/
structure Version where
  Version : Nat
  Services : Nat
deriving DecidableEq, Repr

/-- The method `OnHandshake`; the constants `ProtocolVersion` and `ServiveSPV` of
package sdk are parameters. The Go expression `v.Services/ServiveSPV&1 == 0`
groups as `((v.Services / ServiveSPV) & 1) == 0`. -/
def OnHandshake (ProtocolVersion ServiveSPV : Nat) (v : Version) : Except String Unit :=
  if v.Version < ProtocolVersion then
    .error ("To support SPV protocol, peer version must greater than " ++
      toString ProtocolVersion)
  else if (v.Services / ServiveSPV) &&& 1 = 0 then
    .error "SPV service not enabled on connected peer"
  else .ok ()

/-- The function `strings.LastIndex` for a substring of one character, scanning
from position `i` with `best` the last position found so far. Positions count
characters; for the ASCII character searched here the text before the position
is the same as with the byte positions of Go. -/
def lastIndexChars (c : Char) : List Char → Nat → Int → Int
  | [], _, best => best
  | x :: xs, i, best => lastIndexChars c xs (i + 1) (if x = c then (i : Int) else best)

/-- The function `strings.LastIndex`: -1 when the character does not occur. -/
def LastIndex (s : String) (c : Char) : Int :=
  lastIndexChars c s.data 0 (-1)

/-- The function `toSPVAddr`; the constant `SPVServerPort` of package sdk is a
parameter, and `fmt.Sprint` prints it in decimal after the two strings. -/
def toSPVAddr (SPVServerPort : Nat) (seeds : List String) : List String :=
  seeds.map (fun seed =>
    let portIndex := LastIndex seed ':'
    if portIndex > 0 then
      String.mk (seed.data.take portIndex.toNat) ++ ":" ++ toString SPVServerPort
    else
      seed ++ ":" ++ toString SPVServerPort)

/-! ## sdk/spvclientimpl.go -/

/-- Modelled from the spec: the states of a peer (declared in package p2p, which
is not among the sources), INIT → HAND → HANDSHAKE → ESTABLISH → CLOSED. -/
inductive PeerState where
  | INIT
  | HAND
  | HANDSHAKE
  | ESTABLISH
  | CLOSED
deriving DecidableEq, Repr

/-- What `keepUpdate` reads of a peer: its identity, `State()` and `LastActive()`
(a time in nanoseconds). -/
structure Peer where
  id : Nat
  state : PeerState
  lastActive : Int
deriving DecidableEq, Repr

/-- The calls `keepUpdate` makes on a peer: `DisconnectPeer(peer)` and
`peer.Send(msg.NewPing(height))`. -/
inductive PeerCall where
  | DisconnectPeer (peer : Peer)
  | SendPing (peer : Peer) (height : Nat)
deriving DecidableEq, Repr

/-- The constant `time.Second`, in nanoseconds. -/
def Second : Int := 1000000000

/-- The body of the loop over the connected peers in `keepUpdate`, for one peer:
`now` is the value of `time.Now()` and `localHeight` the value of
`Local().Height()` read for this peer; `InfoUpdateDuration` and `KeepAliveTimeout`
are constants of package net. The conversion `uint32(...)` keeps the height
modulo 2^32. -/
def keepUpdatePeer (InfoUpdateDuration KeepAliveTimeout : Int) (now : Int) (localHeight : Nat)
    (peer : Peer) : List PeerCall :=
  if peer.state = PeerState.ESTABLISH then
    if peer.lastActive < now + (-Second * InfoUpdateDuration * KeepAliveTimeout) then
      [PeerCall.DisconnectPeer peer]
    else
      [PeerCall.SendPing peer (localHeight % 2 ^ 32)]
  else []

/-- The loop over `ConnectedPeers()` from the peer at position `i` on; `clock i`
and `height i` are the time and the local height read while the peer at
position `i` is examined. -/
def keepUpdateFrom (InfoUpdateDuration KeepAliveTimeout : Int) (clock : Nat → Int)
    (height : Nat → Nat) : Nat → List Peer → List PeerCall
  | _, [] => []
  | i, peer :: rest =>
    keepUpdatePeer InfoUpdateDuration KeepAliveTimeout (clock i) (height i) peer ++
      keepUpdateFrom InfoUpdateDuration KeepAliveTimeout clock height (i + 1) rest

/-- One tick of `keepUpdate`: the calls made, in order. -/
def keepUpdate (InfoUpdateDuration KeepAliveTimeout : Int) (clock : Nat → Int)
    (height : Nat → Nat) (connectedPeers : List Peer) : List PeerCall :=
  keepUpdateFrom InfoUpdateDuration KeepAliveTimeout clock height 0 connectedPeers

/-! ## cli/transaction/transaction.go: multi-output transactions -/

/-- The struct `walt.Output`: an address and an amount (a `Fixed64`). -/
structure Output where
  Address : String
  Amount : Int
deriving DecidableEq, Repr

/-- The wallet method `createMultiOutputTransaction` ends with. -/
inductive WalletCall where
  | CreateMultiOutputTransaction (fromAddr : String) (fee : Int) (outputs : List Output)
  | CreateLockedMultiOutputTransaction (fromAddr : String) (fee : Int) (lock : Nat)
      (outputs : List Output)
deriving DecidableEq, Repr

/-- The errors `createMultiOutputTransaction` returns before it calls the wallet. -/
inductive CreateError where
  | invalidPath
  | openFailed
  | invalidLine (columns : List String)
  | invalidAmount (amountStr : String)
  | invalidLock
deriving DecidableEq, Repr

/-- The multi-output file as the function finds it: `os.Stat` fails, `os.OpenFile`
fails, or the file is opened and holds the text `data`; `readFails = some n` is a
read error once `n` characters have been delivered, `none` a read up to the end
of the file. -/
inductive OutputFile where
  | missing
  | unreadable
  | content (data : String) (readFails : Option Nat)
deriving DecidableEq, Repr

/-- The constant `bufio.MaxScanTokenSize`: 64 * 1024. -/
def MaxScanTokenSize : Nat := 65536

/-- Number of bytes of the UTF-8 encoding of a text. -/
def byteLen (l : List Char) : Nat :=
  (l.map (fun c => c.utf8Size)).sum

/-- The function `dropCR` of package bufio: one carriage return at the end of a
line is dropped. -/
def dropCR (l : List Char) : List Char :=
  if l.getLast? = some '\r' then l.dropLast else l

/-- The lines of a text as `bufio.ScanLines` cuts them, before `dropCR`: a line
ends at a newline, and the text after the last newline is a line when it is
not empty. -/
def rawLines (data : List Char) : List (List Char) :=
  let pieces := splitChars '\n' data
  if pieces.getLast? = some [] then pieces.dropLast else pieces

/-- The lines of a file: what a complete scan yields. -/
def fileLines (data : String) : List String :=
  (rawLines data.data).map (fun l => String.mk (dropCR l))

/-- The tokens `scanner.Scan()` yields with the split function `bufio.ScanLines`
and the default buffer: the buffer grows to `MaxScanTokenSize` bytes, and at the
first line of that many bytes or more before its newline `Scan` returns false
for good (the error `bufio.ErrTooLong` stays in `scanner.Err()`), whatever
follows in the file. -/
def scanLines (data : List Char) : List String :=
  ((rawLines data).takeWhile (fun l => decide (byteLen l < MaxScanTokenSize))).map
    (fun l => String.mk (dropCR l))

/-- The call `strconv.ParseUint(s, 10, 32)`: decimal digits only, value below 2^32. -/
def ParseUint32 (s : String) : Option Nat :=
  if s.data.length = 0 then none
  else if s.data.all (fun c => decide ('0' ≤ c) && decide (c ≤ '9')) then
    let n := s.data.foldl (fun n c => 10 * n + (c.toNat - '0'.toNat)) 0
    if n < 2 ^ 32 then some n else none
  else none

/-- The loop `for scanner.Scan()` of `createMultiOutputTransaction` over the lines
the scanner yields; `StringToFixed64` of package core is a parameter. -/
def scanOutputs (StringToFixed64 : String → Option Int) :
    List String → List Output → Except CreateError (List Output)
  | [], multiOutput => .ok multiOutput
  | line :: rest, multiOutput =>
    let columns := Split line ','
    if columns.length < 2 then .error (.invalidLine columns)
    else
      let amountStr := TrimSpace (columns.getD 1 "")
      match StringToFixed64 amountStr with
      | none => .error (.invalidAmount amountStr)
      | some amount =>
        let address := TrimSpace (columns.getD 0 "")
        scanOutputs StringToFixed64 rest (multiOutput ++ [⟨address, amount⟩])

/-- The function `createMultiOutputTransaction` up to its call of the wallet;
`lockStr` is the value of the flag `lock`. At a read error the scanner treats
what was delivered as the whole input and stops; the function never reads
`scanner.Err()`, so that after the loop it goes on with the outputs collected. -/
def createMultiOutputTransaction (StringToFixed64 : String → Option Int) (path : OutputFile)
    (lockStr : String) (fromAddr : String) (fee : Int) : Except CreateError WalletCall :=
  match path with
  | .missing => .error .invalidPath
  | .unreadable => .error .openFailed
  | .content data readFails =>
    let delivered :=
      match readFails with
      | none => data.data
      | some n => data.data.take n
    match scanOutputs StringToFixed64 (scanLines delivered) [] with
    | .error e => .error e
    | .ok multiOutput =>
      if lockStr = "" then .ok (.CreateMultiOutputTransaction fromAddr fee multiOutput)
      else
        match ParseUint32 lockStr with
        | none => .error .invalidLock
        | some lock => .ok (.CreateLockedMultiOutputTransaction fromAddr fee lock multiOutput)

/-- A multi-output file of three lines, `a,1`, `b,2` after the given blanks, and
`c,3`, each ended by a newline. -/
def paddedFile (blanks : List Char) : String :=
  String.mk (['a', ',', '1'] ++ '\n' ::
    ((blanks ++ ['b', ',', '2']) ++ '\n' :: (['c', ',', '3'] ++ '\n' :: [])))

/-- The amounts of the examples: a decimal number below 2^32. -/
def sampleAmount (s : String) : Option Int :=
  (ParseUint32 s).map Int.ofNat

/-- The peer a call is made on. -/
def PeerCall.target : PeerCall → Peer
  | .DisconnectPeer peer => peer
  | .SendPing peer _ => peer

/-- The output that corresponds to a line of the multi-output file: the trimmed
first column as address, the amount parsed from the trimmed second column. -/
def LineOutput (StringToFixed64 : String → Option Int) (line : String) (out : Output) : Prop :=
  out.Address = TrimSpace ((Split line ',').getD 0 "") ∧
  StringToFixed64 (TrimSpace ((Split line ',').getD 1 "")) = some out.Amount

/-- The address `toSPVAddr` is to return for a seed: the text before the last
colon (when that text is not empty), or else the whole seed, followed by a colon
and the port in decimal. -/
def SPVAddrOf (SPVServerPort : Nat) (seed addr : String) : Prop :=
  (∀ host port : String, seed = host ++ ":" ++ port → ':' ∉ port.data → host ≠ "" →
    addr = host ++ ":" ++ toString SPVServerPort) ∧
  (∀ port : String, seed = ":" ++ port → ':' ∉ port.data →
    addr = seed ++ ":" ++ toString SPVServerPort) ∧
  (':' ∉ seed.data → addr = seed ++ ":" ++ toString SPVServerPort) ∧
  ∃ host : String, addr = host ++ ":" ++ toString SPVServerPort

/-! ## spvwallet/db/txsdb.go and db/storetx.go -/

/-- The type `Uint256` of package common: 32 bytes. -/
abbrev Uint256 := { l : List UInt8 // l.length = 32 }

/-- The function `Uint256FromBytes` of package common, which rejects a slice
that is not 32 bytes long. -/
def Uint256FromBytes (b : List UInt8) : Except String Uint256 :=
  if h : b.length = 32 then .ok ⟨b, h⟩ else .error "Uint256FromBytes: len != 32"

/-- The constant `math.MaxUint32`. -/
def MaxUint32 : Nat := 4294967295

/-- The type `Transaction` of package core enters through its methods `Hash`,
`SerializeUnsigned` and `DeserializeUnsigned`. -/
structure TxCodec (Tx : Type) where
  Hash : Tx → Uint256
  SerializeUnsigned : Tx → Except String (List UInt8)
  DeserializeUnsigned : List UInt8 → Except String Tx

/-- The struct `StoreTx`. -/
structure StoreTx (Tx : Type) where
  TxId : Uint256
  Height : Nat
  Data : Tx
deriving DecidableEq, Repr

/-- The function `NewStoreTx`. -/
def NewStoreTx {Tx : Type} (c : TxCodec Tx) (tx : Tx) (height : Nat) : StoreTx Tx :=
  { TxId := c.Hash tx, Height := height, Data := tx }

/-- A row of the table `TXNs(Hash BLOB PRIMARY KEY, Height INTEGER, RawData BLOB)`. -/
structure TxRow where
  Hash : List UInt8
  Height : Nat
  RawData : List UInt8
deriving DecidableEq, Repr

/-- The table `TXNs`: its rows in the order in which a query yields them. A
statement fails when it breaks a constraint of the table; the SQL engine itself
is taken not to fail otherwise. -/
abbrev TxTable := List TxRow

namespace TxsDB

/-- The effect of `INSERT OR REPLACE INTO TXNs` on the rows: a row with the same
primary key is deleted and the new row is inserted. -/
def insertOrReplace (t : TxTable) (row : TxRow) : TxTable :=
  t.filter (fun r => r.Hash != row.Hash) ++ [row]

/-- The call `t.Exec` of the statement `INSERT OR REPLACE INTO TXNs`. The columns
`Hash` and `RawData` are declared `NOT NULL` without a default: an empty value
(the nil slice, which the driver binds as NULL) makes the statement fail and
leaves the table as it was. -/
def execInsertOrReplace (t : TxTable) (row : TxRow) : Except String TxTable :=
  if row.Hash.length = 0 then .error "NOT NULL constraint failed: TXNs.Hash"
  else if row.RawData.length = 0 then .error "NOT NULL constraint failed: TXNs.RawData"
  else .ok (insertOrReplace t row)

/-- The method `TxsDB.Put`: the error of `SerializeUnsigned` or of `Exec` is
returned. -/
def Put {Tx : Type} (c : TxCodec Tx) (t : TxTable) (storeTx : StoreTx Tx) :
    Except String TxTable :=
  match c.SerializeUnsigned storeTx.Data with
  | .error e => .error e
  | .ok buf => execInsertOrReplace t ⟨storeTx.TxId.val, storeTx.Height, buf⟩

/-- The method `TxsDB.Get`; `Scan` into a `uint32` fails for a stored height that
does not fit. -/
def Get {Tx : Type} (c : TxCodec Tx) (t : TxTable) (txId : Uint256) :
    Except String (StoreTx Tx) :=
  match t.find? (fun r => r.Hash == txId.val) with
  | none => .error "sql: no rows in result set"
  | some row =>
    if row.Height < 2 ^ 32 then
      match c.DeserializeUnsigned row.RawData with
      | .error e => .error e
      | .ok tx => .ok { TxId := txId, Height := row.Height, Data := tx }
    else .error "sql: Scan error on column Height"

/-- The loop `for rows.Next()` of `GetAllFrom` over the rows of the query. -/
def scanRows {Tx : Type} (c : TxCodec Tx) :
    List TxRow → List (StoreTx Tx) → Except String (List (StoreTx Tx))
  | [], txns => .ok txns
  | row :: rest, txns =>
    if row.Height < 2 ^ 32 then
      match Uint256FromBytes row.Hash with
      | .error e => .error e
      | .ok txId =>
        match c.DeserializeUnsigned row.RawData with
        | .error e => .error e
        | .ok tx => scanRows c rest (txns ++ [{ TxId := txId, Height := row.Height, Data := tx }])
    else .error "sql: Scan error on column Height"

/-- The method `TxsDB.GetAllFrom`: the clause `WHERE Height=?` is added unless
the height is `math.MaxUint32`; the sqlite3 driver binds as many arguments as
the statement has placeholders, so that the argument is unused without the clause. -/
def GetAllFrom {Tx : Type} (c : TxCodec Tx) (t : TxTable) (height : Nat) :
    Except String (List (StoreTx Tx)) :=
  let rows := if height ≠ MaxUint32 then t.filter (fun r => r.Height == height) else t
  scanRows c rows []

/-- The method `TxsDB.GetAll`. -/
def GetAll {Tx : Type} (c : TxCodec Tx) (t : TxTable) : Except String (List (StoreTx Tx)) :=
  GetAllFrom c t MaxUint32

/-- The method `TxsDB.UpdateHeight`. -/
def UpdateHeight (t : TxTable) (txId : Uint256) (height : Nat) : TxTable :=
  t.map (fun r => if r.Hash == txId.val then { r with Height := height } else r)

/-- The method `TxsDB.Delete`. -/
def Delete (t : TxTable) (txId : Uint256) : TxTable :=
  t.filter (fun r => r.Hash != txId.val)

/-- A row and the stored transaction read from it: its hash, its height and
the transaction its raw data deserializes to. -/
def Stored {Tx : Type} (c : TxCodec Tx) (row : TxRow) (stx : StoreTx Tx) : Prop :=
  stx.TxId.val = row.Hash ∧ stx.Height = row.Height ∧
  c.DeserializeUnsigned row.RawData = .ok stx.Data

/-- A row as `Put` writes it: a hash of 32 bytes, a height that fits a `uint32`
and raw data that deserializes. -/
def WellFormed {Tx : Type} (c : TxCodec Tx) (row : TxRow) : Prop :=
  row.Hash.length = 32 ∧ row.Height < 2 ^ 32 ∧ ∃ tx, c.DeserializeUnsigned row.RawData = .ok tx

/-- A codec for examples: a transaction is its own unsigned serialization and its
hash is its first byte repeated. -/
def sampleTxCodec : TxCodec (List UInt8) where
  Hash := fun tx => ⟨List.replicate 32 (tx.headD 0), List.length_replicate 32 _⟩
  SerializeUnsigned := fun tx => .ok tx
  DeserializeUnsigned := fun raw => .ok raw

end TxsDB

/-! ## sdk/spvclientimpl.go: message dispatch -/

/-- Modelled from the spec: the messages of the wire protocol (`version`,
`verack`, `getaddr`, `addr`, `ping`, `pong`, `inv`, `getdata`, `tx`, `merkleblock`,
`notfound`, `reject`, `filterload`), whose Go types are declared in packages that
are not among the sources. `Ping` and `Pong` carry a height; the content of the
other messages is kept as bytes, empty in the value `new(...)` creates. -/
inductive Message where
  | Ping (Height : Nat)
  | Pong (Height : Nat)
  | Inventory (body : List UInt8)
  | Transaction (body : List UInt8)
  | MerkleBlock (body : List UInt8)
  | NotFound (body : List UInt8)
  | Version (body : List UInt8)
  | VerAck
  | GetAddr
  | Addr (body : List UInt8)
  | GetData (body : List UInt8)
  | Reject (body : List UInt8)
  | FilterLoad (body : List UInt8)
deriving DecidableEq, Repr

/-- The handler `HandleMessage` passes a message to. -/
inductive Handler where
  | OnPing
  | OnPong
  | OnInventory
  | OnMerkleBlock
  | OnTxn
  | OnNotFound
deriving DecidableEq, Repr

/-- The method `SPVClientImpl.MakeMessage`. -/
def MakeMessage (cmd : String) : Except String Message :=
  if cmd = "ping" then .ok (Message.Ping 0)
  else if cmd = "pong" then .ok (Message.Pong 0)
  else if cmd = "inv" then .ok (Message.Inventory [])
  else if cmd = "tx" then .ok (Message.Transaction [])
  else if cmd = "merkleblock" then .ok (Message.MerkleBlock [])
  else if cmd = "notfound" then .ok (Message.NotFound [])
  else .error ("Received unsupported message, CMD " ++ cmd)

/-- The type switch of `SPVClientImpl.HandleMessage`: the handler that is called,
or the error of the default branch. -/
def HandleMessage (message : Message) : Except String Handler :=
  match message with
  | .Ping _ => .ok Handler.OnPing
  | .Pong _ => .ok Handler.OnPong
  | .Inventory _ => .ok Handler.OnInventory
  | .MerkleBlock _ => .ok Handler.OnMerkleBlock
  | .Transaction _ => .ok Handler.OnTxn
  | .NotFound _ => .ok Handler.OnNotFound
  | _ => .error "handle message unknown type"

/-! ## Further definitions for the proofs store and the address manager -/

/-- A codec for examples in which an empty record does not deserialize. -/
def ProofsDB.strictCodec : ProofCodec (List UInt8 × List UInt8) where
  blockHash := fun p => p.1
  serialize := fun p => .ok p.2
  deserialize := fun body =>
    if body.length = 0 then .error "EOF" else .ok (body.take 1, body)

/-- The property of the cached list that `AddAddr` maintains: no address twice
and no seed. -/
def AddrManager.CachedInv (am : AddrManager) : Prop :=
  am.cached.Nodup ∧ ∀ a ∈ am.cached, a ∉ am.seeds

/-- A call of one of the three methods that follow a connection, with what the
operating system does when the cache file is rewritten. -/
inductive AddrManager.Op where
  | AddAddr (addr : String) (os : WriteOutcome)
  | DiscardAddr (addr : String) (os : WriteOutcome)
  | DisconnectedAddr (addr : String)
deriving DecidableEq, Repr

/-- The manager and the cache file after one call. -/
def AddrManager.step (st : AddrManager × Option String) :
    AddrManager.Op → AddrManager × Option String
  | .AddAddr addr os => AddrManager.AddAddr st.1 os st.2 addr
  | .DiscardAddr addr os => AddrManager.DiscardAddr st.1 os st.2 addr
  | .DisconnectedAddr addr => (AddrManager.DisconnectedAddr st.1 addr, st.2)

/-- The manager and the cache file after a sequence of calls. -/
def AddrManager.run (st : AddrManager × Option String) (ops : List AddrManager.Op) :
    AddrManager × Option String :=
  ops.foldl AddrManager.step st

/-! ## Properties of the address manager -/

namespace AddrManager

theorem isConnected_iff (am : AddrManager) (a : String) :
    am.isConnected a = true ↔ a ∈ am.connected := by
  unfold isConnected
  rw [List.any_eq_true]
  constructor
  · rintro ⟨x, hx, he⟩
    have : x = a := by simpa using he
    exact this ▸ hx
  · intro h
    exact ⟨a, h, by simp⟩

theorem isSeed_iff (am : AddrManager) (a : String) : am.isSeed a = true ↔ a ∈ am.seeds := by
  unfold isSeed
  rw [List.any_eq_true]
  constructor
  · rintro ⟨x, hx, he⟩
    have : x = a := by simpa using he
    exact this ▸ hx
  · intro h
    exact ⟨a, h, by simp⟩

theorem isCached_iff (am : AddrManager) (a : String) : am.isCached a = true ↔ a ∈ am.cached := by
  unfold isCached
  rw [List.any_eq_true]
  constructor
  · rintro ⟨x, hx, he⟩
    have : x = a := by simpa using he
    exact this ▸ hx
  · intro h
    exact ⟨a, h, by simp⟩

theorem mem_mapInsert (keys : List String) (key a : String) :
    a ∈ mapInsert keys key ↔ a ∈ keys ∨ a = key := by
  unfold mapInsert
  split
  · constructor
    · exact Or.inl
    · rintro (h | rfl)
      · exact h
      · assumption
  · simp

theorem nodup_mapInsert (keys : List String) (key : String) (h : keys.Nodup) :
    (mapInsert keys key).Nodup := by
  unfold mapInsert
  split
  · exact h
  · rename_i hk
    rw [List.nodup_append]
    refine ⟨h, List.nodup_singleton key, ?_⟩
    intro a ha hb
    simp only [List.mem_singleton] at hb
    exact hk (hb ▸ ha)

/-- One filling loop of `GetIdleAddrs` keeps the keys distinct and adds exactly the
addresses of the list that are not skipped. -/
theorem fill_spec (skip : String → Bool) (l : List String) (init : List String)
    (hinit : init.Nodup) :
    (l.foldl (fun addrMap x => if skip x then addrMap else mapInsert addrMap x) init).Nodup ∧
    ∀ a, a ∈ l.foldl (fun addrMap x => if skip x then addrMap else mapInsert addrMap x) init ↔
      a ∈ init ∨ (a ∈ l ∧ skip a = false) := by
  induction l generalizing init with
  | nil => simp [hinit]
  | cons x xs ih =>
    simp only [List.foldl_cons]
    by_cases hx : skip x = true
    · rw [if_pos hx]
      refine ⟨(ih init hinit).1, fun a => ?_⟩
      rw [(ih init hinit).2 a]
      constructor
      · rintro (h | ⟨h, hs⟩)
        · exact Or.inl h
        · exact Or.inr ⟨List.mem_cons_of_mem _ h, hs⟩
      · rintro (h | ⟨h, hs⟩)
        · exact Or.inl h
        · rcases List.mem_cons.mp h with rfl | h
          · rw [hx] at hs; cases hs
          · exact Or.inr ⟨h, hs⟩
    · rw [if_neg hx]
      have hn := nodup_mapInsert init x hinit
      refine ⟨(ih _ hn).1, fun a => ?_⟩
      rw [(ih _ hn).2 a, mem_mapInsert]
      have hx2 : skip x = false := by simpa using hx
      constructor
      · rintro ((h | rfl) | ⟨h, hs⟩)
        · exact Or.inl h
        · exact Or.inr ⟨List.mem_cons_self _ _, hx2⟩
        · exact Or.inr ⟨List.mem_cons_of_mem _ h, hs⟩
      · rintro (h | ⟨h, hs⟩)
        · exact Or.inl (Or.inl h)
        · rcases List.mem_cons.mp h with rfl | h
          · exact Or.inl (Or.inr rfl)
          · exact Or.inr ⟨h, hs⟩

theorem nodup_addrMapKeys (am : AddrManager) : (addrMapKeys am).Nodup :=
  (fill_spec am.isConnected am.cached _
    (fill_spec am.isConnected am.seeds [] List.nodup_nil).1).1

theorem mem_addrMapKeys (am : AddrManager) (a : String) :
    a ∈ addrMapKeys am ↔ (a ∈ am.seeds ∨ a ∈ am.cached) ∧ a ∉ am.connected := by
  have h1 := fill_spec am.isConnected am.seeds [] List.nodup_nil
  have h2 := fill_spec am.isConnected am.cached _ h1.1
  have hc : am.isConnected a = false ↔ a ∉ am.connected := by
    rw [← isConnected_iff]; simp
  unfold addrMapKeys
  rw [h2.2 a, h1.2 a, hc]
  simp only [List.not_mem_nil, false_or]
  tauto

theorem addrMapKeys_toFinset (am : AddrManager) : (addrMapKeys am).toFinset = idleSet am := by
  ext a
  simp [idleSet, mem_addrMapKeys]

theorem length_addrMapKeys (am : AddrManager) : (addrMapKeys am).length = (idleSet am).card := by
  rw [← addrMapKeys_toFinset, List.toFinset_card_of_nodup (nodup_addrMapKeys am)]

/-- The copy loop writes the first `k + 1` keys of the iteration, last one first,
into the first `k + 1` cells of the slice. -/
theorem idleLoop_spec (order : List String) (k : Nat) (front back : List String)
    (hf : front.length = k + 1) (hk : k + 1 ≤ order.length) :
    idleLoop order ((k : Int) + 1) (front ++ back) = .ok ((order.take (k + 1)).reverse ++ back) := by
  induction order generalizing k front back with
  | nil => simp at hk
  | cons addr rest ih =>
    obtain ⟨front1, x, rfl⟩ : ∃ f1 x, front = f1 ++ [x] := by
      rcases List.eq_nil_or_concat front with h | ⟨f1, x, h⟩
      · subst h; simp at hf
      · exact ⟨f1, x, by simpa using h⟩
    have hf1 : front1.length = k := by simpa using hf
    have hset : (front1 ++ [x] ++ back).set k addr = front1 ++ addr :: back := by
      rw [List.append_assoc, ← hf1]
      simp
    unfold idleLoop
    have hlen : ¬ ((k : Int) + 1 - 1 < 0 ∨
        (((front1 ++ [x] ++ back).length : Nat) : Int) ≤ (k : Int) + 1 - 1) := by
      simp only [List.length_append, List.length_singleton, hf1]
      push_cast
      omega
    simp only [hlen, if_false]
    have hto : ((k : Int) + 1 - 1).toNat = k := by omega
    rw [hto, hset]
    cases k with
    | zero =>
      have : front1 = [] := List.length_eq_zero.mp hf1
      simp [this]
    | succ j =>
      have hne : ¬ (((j + 1 : Nat) : Int) + 1 - 1 = 0) := by omega
      simp only [hne, if_false]
      have hcast : ((j + 1 : Nat) : Int) + 1 - 1 = (j : Int) + 1 := by omega
      rw [hcast, ih j front1 (addr :: back) hf1 (by simpa using hk)]
      simp [List.take_succ_cons]

/-- C1: for every state of the address manager, every order in which the map
`addrMap` is iterated and every count n ≥ 1, `GetIdleAddrs n` returns (without a
panic) exactly min(n, |I|) pairwise distinct addresses, each of them in
I = (seeds ∪ cached) \ connected. -/
theorem GetIdleAddrs_spec (am : AddrManager) (order : List String) (n : Int)
    (horder : order.Perm (addrMapKeys am)) (hn : 1 ≤ n) :
    ∃ addrs, GetIdleAddrs am order n = .ok addrs ∧
      (addrs.length : Int) = min n ((idleSet am).card : Int) ∧
      addrs.Nodup ∧ ∀ a ∈ addrs, a ∈ idleSet am := by
  have hlen : order.length = (idleSet am).card := by
    rw [horder.length_eq, length_addrMapKeys]
  have hnodup : order.Nodup := horder.nodup_iff.mpr (nodup_addrMapKeys am)
  have hmem : ∀ a ∈ order, a ∈ idleSet am := by
    intro a ha
    rw [← addrMapKeys_toFinset, List.mem_toFinset]
    exact horder.mem_iff.mp ha
  unfold GetIdleAddrs
  simp only [length_addrMapKeys]
  rcases Nat.eq_zero_or_pos (idleSet am).card with h0 | hpos
  · have hnil : order = [] := List.length_eq_zero.mp (hlen.trans h0)
    refine ⟨[], ?_, ?_, List.nodup_nil, by simp⟩
    · rw [h0, hnil]
      have hpos : (0 : Int) < n := by omega
      simp [hpos, idleLoop]
    · rw [h0]
      simp
      omega
  · obtain ⟨k, hk⟩ : ∃ k : Nat, min n ((idleSet am).card : Int) = (k : Int) + 1 := by
      refine ⟨(min n ((idleSet am).card : Int) - 1).toNat, ?_⟩
      have : 1 ≤ min n ((idleSet am).card : Int) := by
        rw [le_min_iff]; exact ⟨hn, by exact_mod_cast hpos⟩
      omega
    have hcount : (if n > ((idleSet am).card : Int) then ((idleSet am).card : Int) else n)
        = (k : Int) + 1 := by
      rw [← hk]
      split
      · rw [min_eq_right]; omega
      · rw [min_eq_left]; omega
    have hkle : k + 1 ≤ order.length := by
      rw [hlen]
      have : min n ((idleSet am).card : Int) ≤ ((idleSet am).card : Int) := min_le_right _ _
      omega
    refine ⟨(order.take (k + 1)).reverse, ?_, ?_, ?_, ?_⟩
    · rw [hcount]
      have hneg : ¬ ((k : Int) + 1 < 0) := by omega
      rw [if_neg hneg]
      have hto : ((k : Int) + 1).toNat = k + 1 := by omega
      rw [hto]
      have := idleLoop_spec order k (List.replicate (k + 1) "") [] (by simp) hkle
      simpa using this
    · rw [hk, List.length_reverse, List.length_take, min_eq_left hkle]
      push_cast
      rfl
    · exact List.nodup_reverse.mpr ((List.take_sublist _ _).nodup hnodup)
    · intro a ha
      exact hmem a (List.mem_of_mem_take (List.mem_reverse.mp ha))

/-- A run of C1: seeds s1 and s2, cached p1 and p2, p2 connected, two addresses asked. -/
theorem GetIdleAddrs_spec_witness :
    ∃ addrs, GetIdleAddrs ⟨["s1", "s2"], ["p1", "p2"], ["p2"]⟩ ["p1", "s2", "s1"] 2 = .ok addrs ∧
      (addrs.length : Int) = min 2 ((idleSet ⟨["s1", "s2"], ["p1", "p2"], ["p2"]⟩).card : Int) ∧
      addrs.Nodup ∧ ∀ a ∈ addrs, a ∈ idleSet ⟨["s1", "s2"], ["p1", "p2"], ["p2"]⟩ :=
  GetIdleAddrs_spec ⟨["s1", "s2"], ["p1", "p2"], ["p2"]⟩ ["p1", "s2", "s1"] 2
    (by decide) (by decide)

theorem discardLoop_eq_none (a : String) (before l : List String) (h : a ∉ l) :
    discardLoop a before l = none := by
  induction l generalizing before with
  | nil => rfl
  | cons x xs ih =>
    have hx : ¬ x = a := fun e => h (e ▸ List.mem_cons_self _ _)
    have hxs : a ∉ xs := fun m => h (List.mem_cons_of_mem _ m)
    simp only [discardLoop, if_neg hx]
    exact ih _ hxs

/-- When the address occurs at most once, the loop of `DiscardAddr` yields the
slice without it. -/
theorem discardLoop_eq_some (a : String) (before l : List String) (hmem : a ∈ l)
    (hcount : l.count a ≤ 1) :
    discardLoop a before l = some (before ++ l.filter (fun x => x != a)) := by
  induction l generalizing before with
  | nil => simp at hmem
  | cons x xs ih =>
    by_cases hx : x = a
    · subst hx
      have hxs : x ∉ xs := by
        intro m
        have : 0 < xs.count x := List.count_pos_iff.mpr m
        simp at hcount
        omega
      have hfil : xs.filter (fun y => y != x) = xs := by
        rw [List.filter_eq_self]
        intro y hy
        have : y ≠ x := fun e => hxs (e ▸ hy)
        simpa using this
      simp [discardLoop, hfil]
    · have hmem2 : a ∈ xs := by
        rcases List.mem_cons.mp hmem with e | m
        · exact absurd e.symm hx
        · exact m
      have hcount2 : xs.count a ≤ 1 := by
        have hxa : (x == a) = false := by simpa using hx
        rw [List.count_cons, hxa] at hcount
        simpa using hcount
      simp only [discardLoop, if_neg hx]
      rw [ih _ hmem2 hcount2]
      have hxa : (x != a) = true := by simpa using hx
      simp [List.filter_cons, hxa]

/-- C2 as stated fails: with the address twice in `cached`, `DiscardAddr` removes
only the first entry and the address is still cached afterwards. -/
theorem DiscardAddr_keeps_duplicate :
    "p1" ∈ (DiscardAddr ⟨["s1"], ["p1", "p2", "p1"], []⟩ .ok none "p1").1.cached ∧
    ¬ (∀ (am : AddrManager) (os : WriteOutcome) (file : Option String) (a : String),
        a ∉ (DiscardAddr am os file a).1.cached) := by
  refine ⟨by decide, fun h => ?_⟩
  exact h ⟨["s1"], ["p1", "p2", "p1"], []⟩ .ok none "p1" (by decide)

/-- C2 (amended): for every state of the address manager whose cached list holds
the address a at most once, after `DiscardAddr a` the cached list does not contain
a, it is the old cached list without a (the other addresses in their order),
and seeds and connected are unchanged. -/
theorem DiscardAddr_spec (am : AddrManager) (os : WriteOutcome) (file : Option String)
    (a : String) (honce : am.cached.count a ≤ 1) :
    a ∉ (DiscardAddr am os file a).1.cached ∧
    (DiscardAddr am os file a).1.cached = am.cached.filter (fun x => x != a) ∧
    (DiscardAddr am os file a).1.seeds = am.seeds ∧
    (DiscardAddr am os file a).1.connected = am.connected := by
  by_cases hmem : a ∈ am.cached
  · have hloop := discardLoop_eq_some a [] am.cached hmem honce
    have hres : (DiscardAddr am os file a).1 =
        { am with cached := am.cached.filter (fun x => x != a) } := by
      unfold DiscardAddr
      rw [hloop]
      simp
    rw [hres]
    simp
  · have hloop := discardLoop_eq_none a [] am.cached hmem
    have hres : (DiscardAddr am os file a).1 = am := by
      unfold DiscardAddr
      rw [hloop]
    rw [hres]
    refine ⟨hmem, ?_, rfl, rfl⟩
    symm
    rw [List.filter_eq_self]
    intro y hy
    have : y ≠ a := fun e => hmem (e ▸ hy)
    simpa using this

/-- A run of the amended C2: discarding p1 from the cached list p1, p2. -/
theorem DiscardAddr_spec_witness :
    "p1" ∉ (DiscardAddr ⟨["s1"], ["p1", "p2"], ["p2"]⟩ .ok none "p1").1.cached ∧
    (DiscardAddr ⟨["s1"], ["p1", "p2"], ["p2"]⟩ .ok none "p1").1.cached
      = (["p1", "p2"] : List String).filter (fun x => x != "p1") ∧
    (DiscardAddr ⟨["s1"], ["p1", "p2"], ["p2"]⟩ .ok none "p1").1.seeds = ["s1"] ∧
    (DiscardAddr ⟨["s1"], ["p1", "p2"], ["p2"]⟩ .ok none "p1").1.connected = ["p2"] :=
  DiscardAddr_spec ⟨["s1"], ["p1", "p2"], ["p2"]⟩ .ok none "p1" (by decide)

theorem AddAddr_new (am : AddrManager) (os : WriteOutcome) (file : Option String) (a : String)
    (h : a ∉ am.seeds ∧ a ∉ am.cached) :
    AddAddr am os file a =
      ({ am with connected := mapInsert am.connected a, cached := am.cached ++ [a] },
       saveCached { am with connected := mapInsert am.connected a, cached := am.cached ++ [a] }
         os file) := by
  have h1 : isSeed { am with connected := mapInsert am.connected a } a = false := by
    rw [← Bool.not_eq_true, isSeed_iff]; exact h.1
  have h2 : isCached { am with connected := mapInsert am.connected a } a = false := by
    rw [← Bool.not_eq_true, isCached_iff]; exact h.2
  simp [AddAddr, h1, h2]

theorem AddAddr_known (am : AddrManager) (os : WriteOutcome) (file : Option String) (a : String)
    (h : ¬ (a ∉ am.seeds ∧ a ∉ am.cached)) :
    AddAddr am os file a = ({ am with connected := mapInsert am.connected a }, file) := by
  have h12 : isSeed { am with connected := mapInsert am.connected a } a = true ∨
      isCached { am with connected := mapInsert am.connected a } a = true := by
    rw [isSeed_iff, isCached_iff]
    by_contra hc
    exact h ⟨fun m => hc (Or.inl m), fun m => hc (Or.inr m)⟩
  rcases h12 with h1 | h2
  · simp [AddAddr, h1]
  · simp [AddAddr, h2]

/-- C3: after `AddAddr a` the address a is connected and the connected status of
no other address changes; cached is the old cached list with a appended at the
end when a was neither a seed nor cached, and the old cached list otherwise
(so it changes exactly in the first case); seeds is unchanged; the cache file is
left untouched when cached did not change and, the write succeeding, holds the
text of the new cached list when it changed. -/
theorem AddAddr_spec (am : AddrManager) (os : WriteOutcome) (file : Option String) (a : String) :
    a ∈ (AddAddr am os file a).1.connected ∧
    (∀ b, b ≠ a → (b ∈ (AddAddr am os file a).1.connected ↔ b ∈ am.connected)) ∧
    (AddAddr am os file a).1.cached
      = (if a ∉ am.seeds ∧ a ∉ am.cached then am.cached ++ [a] else am.cached) ∧
    ((AddAddr am os file a).1.cached ≠ am.cached ↔ (a ∉ am.seeds ∧ a ∉ am.cached)) ∧
    (AddAddr am os file a).1.seeds = am.seeds ∧
    ((AddAddr am os file a).1.cached = am.cached → (AddAddr am os file a).2 = file) ∧
    ((AddAddr am os file a).1.cached ≠ am.cached →
      (AddAddr am .ok file a).2 = some (cachedText (am.cached ++ [a]))) := by
  by_cases h : a ∉ am.seeds ∧ a ∉ am.cached
  · have hne : am.cached ++ [a] ≠ am.cached := by
      intro e
      have := congrArg List.length e
      simp at this
    rw [AddAddr_new am os file a h, AddAddr_new am .ok file a h, if_pos h]
    refine ⟨?_, ?_, rfl, ?_, rfl, ?_, ?_⟩
    · exact (mem_mapInsert _ _ _).mpr (Or.inr rfl)
    · intro b hb
      show b ∈ mapInsert am.connected a ↔ _
      rw [mem_mapInsert]
      exact ⟨fun hh => hh.resolve_right hb, Or.inl⟩
    · exact ⟨fun _ => h, fun _ => hne⟩
    · intro e
      exact absurd e hne
    · intro _
      rfl
  · rw [AddAddr_known am os file a h, if_neg h]
    refine ⟨?_, ?_, rfl, ?_, rfl, ?_, ?_⟩
    · exact (mem_mapInsert _ _ _).mpr (Or.inr rfl)
    · intro b hb
      show b ∈ mapInsert am.connected a ↔ _
      rw [mem_mapInsert]
      exact ⟨fun hh => hh.resolve_right hb, Or.inl⟩
    · exact ⟨fun hh => absurd rfl hh, fun hh => absurd hh h⟩
    · intro _
      rfl
    · intro hh
      exact absurd rfl hh

/-! ### The cache file -/

theorem splitChars_ne_nil (sep : Char) (l : List Char) : splitChars sep l ≠ [] := by
  cases l with
  | nil => simp [splitChars]
  | cons c cs =>
    unfold splitChars
    split
    · simp
    · split <;> simp

theorem splitChars_piece (sep : Char) (a t : List Char) (ha : sep ∉ a) :
    splitChars sep (a ++ sep :: t) = a :: splitChars sep t := by
  induction a with
  | nil => simp [splitChars]
  | cons c cs ih =>
    have hc : ¬ c = sep := fun e => ha (e ▸ List.mem_cons_self _ _)
    have hcs : sep ∉ cs := fun m => ha (List.mem_cons_of_mem _ m)
    rw [List.cons_append, splitChars, if_neg hc, ih hcs]

theorem splitChars_append_sep (sep : Char) (l : List Char) :
    splitChars sep (l ++ [sep]) = splitChars sep l ++ [[]] := by
  induction l with
  | nil => simp [splitChars]
  | cons c cs ih =>
    by_cases hc : c = sep
    · rw [List.cons_append, splitChars, if_pos hc, ih, splitChars, if_pos hc]
      rfl
    · rw [List.cons_append, splitChars, if_neg hc, ih]
      conv_rhs => rw [splitChars, if_neg hc]
      cases hs : splitChars sep cs with
      | nil => exact absurd hs (splitChars_ne_nil sep cs)
      | cons piece pieces => rfl

theorem cachedText_fold_data (l : List String) (acc : String) :
    (l.foldl (fun text addr => text ++ addr ++ "\n") acc).data
      = acc.data ++ textChars (l.map String.data) := by
  induction l generalizing acc with
  | nil => simp [textChars]
  | cons a as ih =>
    rw [List.foldl_cons, ih]
    simp [textChars, String.data_append]

theorem cachedText_data (l : List String) :
    (cachedText l).data = textChars (l.map String.data) := by
  unfold cachedText
  rw [cachedText_fold_data]
  rfl

theorem startsSolid_append {l : List Char} (h : StartsSolid l) (m : List Char) :
    StartsSolid (l ++ m) := by
  obtain ⟨c, cs, rfl, hc⟩ := h
  exact ⟨c, cs ++ m, rfl, hc⟩

theorem startsSolid_dropWhile {l : List Char} (h : StartsSolid l) :
    l.dropWhile isSpace = l := by
  obtain ⟨c, cs, rfl, hc⟩ := h
  simp [List.dropWhile, hc]

theorem solid_starts {a : List Char} (h : Solid a) : StartsSolid a := by
  obtain ⟨hne, hall⟩ := h
  cases a with
  | nil => exact absurd rfl hne
  | cons c cs => exact ⟨c, cs, rfl, hall c (List.mem_cons_self _ _)⟩

theorem solid_reverse {a : List Char} (h : Solid a) : Solid a.reverse :=
  ⟨by simpa using h.1, fun c hc => h.2 c (List.mem_reverse.mp hc)⟩

theorem solid_no_newline {a : List Char} (h : Solid a) : '\n' ∉ a := by
  intro hm
  have := h.2 _ hm
  simp [isSpace] at this

theorem solid_trim {a : List Char} (h : Solid a) : trimSpaceChars a = a := by
  unfold trimSpaceChars
  rw [startsSolid_dropWhile (solid_starts h),
    startsSolid_dropWhile (solid_starts (solid_reverse h)), List.reverse_reverse]

theorem trimSpaceChars_body (body : List Char) (h1 : StartsSolid body)
    (h2 : StartsSolid body.reverse) : trimSpaceChars (body ++ ['\n']) = body := by
  unfold trimSpaceChars
  rw [startsSolid_dropWhile (startsSolid_append h1 _), List.reverse_append]
  have hnl : isSpace '\n' = true := by decide
  simp only [List.reverse_cons, List.reverse_nil, List.nil_append, List.singleton_append,
    List.dropWhile_cons, hnl, if_true]
  rw [startsSolid_dropWhile h2, List.reverse_reverse]

/-- The text of a non-empty list of solid addresses is a body that begins and ends
with a character that is not white space, followed by one newline. -/
theorem textChars_body (ls : List (List Char)) (hne : ls ≠ []) (hs : ∀ a ∈ ls, Solid a) :
    ∃ body, textChars ls = body ++ ['\n'] ∧ StartsSolid body ∧ StartsSolid body.reverse := by
  induction ls with
  | nil => exact absurd rfl hne
  | cons a rest ih =>
    have ha : Solid a := hs a (List.mem_cons_self _ _)
    cases rest with
    | nil =>
      exact ⟨a, by simp [textChars], solid_starts ha, solid_starts (solid_reverse ha)⟩
    | cons b rest2 =>
      obtain ⟨body, hb, _, hb2⟩ :=
        ih (by simp) (fun x hx => hs x (List.mem_cons_of_mem _ hx))
      refine ⟨a ++ '\n' :: body, ?_, startsSolid_append (solid_starts ha) _, ?_⟩
      · have : textChars (a :: b :: rest2) = a ++ '\n' :: textChars (b :: rest2) := by
          simp [textChars]
        rw [this, hb]
        simp
      · have : (a ++ '\n' :: body).reverse = body.reverse ++ ('\n' :: a.reverse) := by
          simp
        rw [this]
        exact startsSolid_append hb2 _

theorem splitChars_textChars (ls : List (List Char)) (hs : ∀ a ∈ ls, Solid a) :
    splitChars '\n' (textChars ls) = ls ++ [[]] := by
  induction ls with
  | nil => simp [textChars, splitChars]
  | cons a rest ih =>
    have ha : Solid a := hs a (List.mem_cons_self _ _)
    have : textChars (a :: rest) = a ++ '\n' :: textChars rest := by
      simp [textChars]
    rw [this, splitChars_piece _ _ _ (solid_no_newline ha),
      ih (fun x hx => hs x (List.mem_cons_of_mem _ hx))]
    rfl

/-- Splitting the trimmed text of solid addresses gives the addresses back. -/
theorem split_trim_textChars (ls : List (List Char)) (hne : ls ≠ []) (hs : ∀ a ∈ ls, Solid a) :
    splitChars '\n' (trimSpaceChars (textChars ls)) = ls := by
  obtain ⟨body, hb, h1, h2⟩ := textChars_body ls hne hs
  have hsplit := splitChars_textChars ls hs
  rw [hb, splitChars_append_sep] at hsplit
  rw [hb, trimSpaceChars_body body h1 h2]
  exact List.append_cancel_right hsplit

theorem seeds_fold_cached (seeds : List String) (am : AddrManager) :
    (seeds.foldl (fun am addr => { am with seeds := am.seeds ++ [addr] }) am).cached
      = am.cached := by
  induction seeds generalizing am with
  | nil => rfl
  | cons x xs ih => rw [List.foldl_cons, ih]

theorem seeds_fold_seeds (seeds : List String) (am : AddrManager) :
    (seeds.foldl (fun am addr => { am with seeds := am.seeds ++ [addr] }) am).seeds
      = am.seeds ++ seeds := by
  induction seeds generalizing am with
  | nil => simp
  | cons x xs ih => rw [List.foldl_cons, ih]; simp

theorem addrs_fold_cached (addrs : List String) (am : AddrManager) :
    (addrs.foldl
      (fun am addr =>
        if (TrimSpace addr).length ≠ 0 then { am with cached := am.cached ++ [addr] } else am)
      am).cached
      = am.cached ++ addrs.filter (fun addr => decide ((TrimSpace addr).length ≠ 0)) := by
  induction addrs generalizing am with
  | nil => simp
  | cons x xs ih =>
    rw [List.foldl_cons, ih]
    by_cases hx : (TrimSpace x).length ≠ 0
    · simp [hx, List.filter_cons]
    · simp [hx, List.filter_cons]

/-- The cached list that `newAddrManager` reads from the text of the cache file. -/
theorem newAddrManager_cached (seeds : List String) (data : String) :
    (newAddrManager seeds (some data)).cached
      = (Split (TrimSpace data) '\n').filter
          (fun addr => decide ((TrimSpace addr).length ≠ 0)) := by
  unfold newAddrManager
  simp only []
  rw [addrs_fold_cached, seeds_fold_cached]
  rfl

theorem solid_of_string (a : String) (h : a ≠ "" ∧ ∀ c ∈ a.data, isSpace c = false) :
    Solid a.data := by
  refine ⟨fun e => h.1 ?_, h.2⟩
  exact String.ext (by simpa using e)

/-- C4: for every list of cached addresses each of which is non-empty and holds no
white-space character (newline included), the text `saveCached` writes (each
address followed by a newline) is read back by `newAddrManager` as the same cached
list in the same order, whatever the seeds and the previous content of the file. -/
theorem cache_round_trip (am : AddrManager) (seeds : List String) (file : Option String)
    (hsolid : ∀ a ∈ am.cached, a ≠ "" ∧ ∀ c ∈ a.data, isSpace c = false) :
    (newAddrManager seeds (saveCached am .ok file)).cached = am.cached := by
  have hs : ∀ l ∈ am.cached.map String.data, Solid l := by
    intro l hl
    obtain ⟨a, ha, rfl⟩ := List.mem_map.mp hl
    exact solid_of_string a (hsolid a ha)
  have hsave : saveCached am .ok file = some (cachedText am.cached) := rfl
  rw [hsave, newAddrManager_cached]
  unfold Split TrimSpace
  simp only [cachedText_data]
  by_cases hne : am.cached = []
  · rw [hne]
    decide
  · have hne2 : am.cached.map String.data ≠ [] := by simpa using hne
    rw [split_trim_textChars _ hne2 hs, List.map_map]
    have hid : (String.mk ∘ String.data) = id := by
      funext a
      rfl
    rw [hid, List.map_id, List.filter_eq_self]
    intro a ha
    have hsa := solid_of_string a (hsolid a ha)
    have hlen : (String.mk (trimSpaceChars a.data)).length = a.data.length := by
      rw [solid_trim hsa]
      rfl
    have hpos : a.data.length ≠ 0 := by
      intro e
      exact hsa.1 (List.length_eq_zero.mp e)
    simpa [hlen] using hpos

/-- A run of C4: the cached addresses p1:20866 and p2:20866 are written and read back. -/
theorem cache_round_trip_witness :
    (newAddrManager ["s1:20866"]
      (saveCached ⟨["s1:20866"], ["p1:20866", "p2:20866"], []⟩ .ok none)).cached
      = ["p1:20866", "p2:20866"] :=
  cache_round_trip ⟨["s1:20866"], ["p1:20866", "p2:20866"], []⟩ ["s1:20866"] none (by decide)

end AddrManager

/-! ## Properties of the proofs store -/

namespace ProofsDB

theorem bucket_filter_ne (l : List (String × Bucket)) (name : String) :
    (BoltDB.mk (l.filter (fun b => b.1 != name))).bucket name = none := by
  unfold BoltDB.bucket
  simp only [Option.map_eq_none']
  rw [List.find?_eq_none]
  intro b hb
  have := (List.mem_filter.mp hb).2
  simpa using this

theorem Reset_bucket (db db2 : BoltDB) (h : Reset db = .ok db2) :
    db2.bucket BKTProofs = none := by
  unfold Reset BoltDB.deleteBucket at h
  split at h
  · cases h
  · cases h
    exact bucket_filter_ne _ _

/-- C5 (what the code does instead): whenever `Reset` returns without error the
bucket Proofs is deleted and not created again, so that afterwards the bucket
does not exist, `Get` panics on the nil bucket for every block hash instead of
failing with not-found, `Put` panics for every proof that serializes, and a
second `Reset` fails with bucket-not-found. -/
theorem Reset_leaves_no_bucket {Proof : Type} (c : ProofCodec Proof) (db db2 : BoltDB)
    (h : Reset db = .ok db2) :
    db2.bucket BKTProofs = none ∧
    (∀ blockHash, Get c db2 blockHash
      = .error (.panic "invalid memory address or nil pointer dereference")) ∧
    (∀ proof bytes, c.serialize proof = .ok bytes →
      Put c db2 proof = .error (.panic "invalid memory address or nil pointer dereference")) ∧
    Reset db2 = .error (.error "bucket not found") := by
  have hb := Reset_bucket db db2 h
  refine ⟨hb, ?_, ?_, ?_⟩
  · intro blockHash
    simp [Get, getProof, hb]
  · intro proof bytes hs
    simp [Put, serializeProof, hs, hb]
  · simp [Reset, BoltDB.deleteBucket, hb]

/-- A run of C5: the freshly opened, empty store is reset; then a `Get` and a
`Put` panic. -/
theorem Reset_leaves_no_bucket_witness :
    Reset (NewProofsDB ⟨[]⟩) = .ok ⟨[]⟩ ∧
    (BoltDB.mk []).bucket BKTProofs = none ∧
    (∀ blockHash, Get (sampleCodec [1]) ⟨[]⟩ blockHash
      = .error (.panic "invalid memory address or nil pointer dereference")) ∧
    (∀ proof bytes, (sampleCodec [1]).serialize proof = .ok bytes →
      Put (sampleCodec [1]) ⟨[]⟩ proof
        = .error (.panic "invalid memory address or nil pointer dereference")) ∧
    Reset ⟨[]⟩ = .error (.error "bucket not found") :=
  ⟨rfl, Reset_leaves_no_bucket (sampleCodec [1]) (NewProofsDB ⟨[]⟩) ⟨[]⟩ rfl⟩

end ProofsDB

/-! ## Properties of the transaction command -/

/-- C6 as stated fails: with more signatures than needed the file is named
`to_be_signed.txn`, without the two numbers. -/
theorem output_more_than_needed :
    output 2 1 = "to_be_signed.txn" ∧ output 2 1 ≠ "to_be_signed_2_of_1.txn" := by
  decide

/-- C6 (amended): `output` names the file `ready_to_send.txn` when have = need,
`to_be_signed_<have>_of_<need>.txn` (the numbers in decimal) when have < need, and
`to_be_signed.txn` when have > need. -/
theorem output_spec (haveSign needSign : Int) :
    output haveSign needSign =
      if haveSign = needSign then "ready_to_send.txn"
      else if haveSign < needSign then
        "to_be_signed_" ++ toString haveSign ++ "_of_" ++ toString needSign ++ ".txn"
      else "to_be_signed.txn" := by
  simp only [output]
  by_cases h1 : needSign > haveSign
  · have h2 : ¬ haveSign = needSign := by omega
    have h3 : haveSign < needSign := h1
    rw [if_pos h1, if_neg h2, if_pos h3]
    have : ("to_be_signed" : String) ++ "_" = "to_be_signed_" := by decide
    rw [this]
  · by_cases h2 : needSign = haveSign
    · rw [if_neg h1, if_pos h2, if_pos h2.symm]
      decide
    · have h3 : ¬ haveSign = needSign := fun e => h2 e.symm
      have h4 : ¬ haveSign < needSign := h1
      rw [if_neg h1, if_neg h2, if_neg h3, if_neg h4]
      decide

/-! ## Properties of the handshake filter -/

theorem div_and_one_eq_zero_iff (s k : Nat) : (s / 2 ^ k) &&& 1 = 0 ↔ s &&& 2 ^ k = 0 := by
  rw [Nat.and_one_is_mod, Nat.and_two_pow]
  have hpos : 2 ^ k ≠ 0 := (Nat.two_pow_pos k).ne.symm
  have hbit := @Nat.testBit_to_div_mod k s
  rcases Nat.mod_two_eq_zero_or_one (s / 2 ^ k) with h0 | h1
  · have hb : s.testBit k = false := by
      rw [hbit, h0]
      decide
    rw [hb, h0]
    simp
  · have hb : s.testBit k = true := by
      rw [hbit, h1]
      decide
    rw [hb, h1]
    simp [hpos]

/-- C7: with `ServiveSPV` the single-bit mask 2^k, `OnHandshake v` returns an error
if and only if v.Version < ProtocolVersion or the bit of `ServiveSPV` is not set in
v.Services; the test `(v.Services / ServiveSPV) & 1 == 0` is equivalent to
`v.Services AND ServiveSPV == 0`; and a peer whose version equals
`ProtocolVersion`, with the bit set, is accepted. -/
theorem OnHandshake_spec (ProtocolVersion k : Nat) (v : Version) :
    ((∃ e, OnHandshake ProtocolVersion (2 ^ k) v = .error e) ↔
      (v.Version < ProtocolVersion ∨ v.Services &&& 2 ^ k = 0)) ∧
    ((v.Services / 2 ^ k) &&& 1 = 0 ↔ v.Services &&& 2 ^ k = 0) ∧
    OnHandshake ProtocolVersion (2 ^ k) ⟨ProtocolVersion, v.Services ||| 2 ^ k⟩ = .ok () := by
  refine ⟨?_, div_and_one_eq_zero_iff _ _, ?_⟩
  · unfold OnHandshake
    by_cases h1 : v.Version < ProtocolVersion
    · rw [if_pos h1]
      exact ⟨fun _ => Or.inl h1, fun _ => ⟨_, rfl⟩⟩
    · rw [if_neg h1]
      by_cases h2 : (v.Services / 2 ^ k) &&& 1 = 0
      · rw [if_pos h2]
        exact ⟨fun _ => Or.inr ((div_and_one_eq_zero_iff _ _).mp h2), fun _ => ⟨_, rfl⟩⟩
      · rw [if_neg h2]
        constructor
        · rintro ⟨e, he⟩
          cases he
        · rintro (h | h)
          · exact absurd h h1
          · exact absurd ((div_and_one_eq_zero_iff _ _).mpr h) h2
  · unfold OnHandshake
    have h1 : ¬ (ProtocolVersion < ProtocolVersion) := lt_irrefl _
    have h2 : ¬ (((v.Services ||| 2 ^ k) / 2 ^ k) &&& 1 = 0) := by
      rw [div_and_one_eq_zero_iff, Nat.and_two_pow, Nat.testBit_or, Nat.testBit_two_pow_self]
      have hpos : 2 ^ k ≠ 0 := (Nat.two_pow_pos k).ne.symm
      simp [hpos]
    rw [if_neg h1, if_neg h2]

/-! ## Properties of the keep-alive tick -/

theorem keepUpdatePeer_target (D K now : Int) (h : Nat) (peer : Peer) :
    ∀ c ∈ keepUpdatePeer D K now h peer, c.target = peer := by
  intro c hc
  unfold keepUpdatePeer at hc
  split at hc
  · split at hc
    · rw [List.mem_singleton.mp hc]; rfl
    · rw [List.mem_singleton.mp hc]; rfl
  · simp at hc

theorem keepUpdateFrom_target (D K : Int) (clock : Nat → Int) (height : Nat → Nat)
    (i : Nat) (l : List Peer) : ∀ c ∈ keepUpdateFrom D K clock height i l, c.target ∈ l := by
  induction l generalizing i with
  | nil => intro c hc; simp [keepUpdateFrom] at hc
  | cons p ps ih =>
    intro c hc
    rw [keepUpdateFrom, List.mem_append] at hc
    rcases hc with hc | hc
    · rw [keepUpdatePeer_target D K _ _ p c hc]
      exact List.mem_cons_self _ _
    · exact List.mem_cons_of_mem _ (ih _ c hc)

theorem keepUpdateFrom_append (D K : Int) (clock : Nat → Int) (height : Nat → Nat)
    (i : Nat) (l1 l2 : List Peer) :
    keepUpdateFrom D K clock height i (l1 ++ l2)
      = keepUpdateFrom D K clock height i l1
        ++ keepUpdateFrom D K clock height (i + l1.length) l2 := by
  induction l1 generalizing i with
  | nil => simp [keepUpdateFrom]
  | cons p ps ih =>
    rw [List.cons_append, keepUpdateFrom, keepUpdateFrom, ih, List.append_assoc,
      List.length_cons]
    have : i + 1 + ps.length = i + (ps.length + 1) := by omega
    rw [this]

/-- The calls of one tick on a peer that occurs once among the connected peers
are the calls of the loop body for that peer. -/
theorem keepUpdate_calls_on (D K : Int) (clock : Nat → Int) (height : Nat → Nat)
    (before : List Peer) (peer : Peer) (after : List Peer)
    (hdistinct : (before ++ peer :: after).Nodup) (c : PeerCall) (hc : c.target = peer) :
    (keepUpdate D K clock height (before ++ peer :: after)).count c
      = (keepUpdatePeer D K (clock before.length) (height before.length) peer).count c := by
  have hnb : peer ∉ before := by
    intro hm
    exact (List.nodup_append.mp hdistinct).2.2 hm (List.mem_cons_self _ _)
  have hna : peer ∉ after :=
    (List.nodup_cons.mp (List.nodup_append.mp hdistinct).2.1).1
  have h1 : (keepUpdateFrom D K clock height 0 before).count c = 0 := by
    rw [List.count_eq_zero]
    intro hm
    exact hnb (hc ▸ keepUpdateFrom_target D K clock height 0 before c hm)
  have h2 : (keepUpdateFrom D K clock height (before.length + 1) after).count c = 0 := by
    rw [List.count_eq_zero]
    intro hm
    exact hna (hc ▸ keepUpdateFrom_target D K clock height _ after c hm)
  unfold keepUpdate
  rw [keepUpdateFrom_append, keepUpdateFrom, List.count_append, List.count_append, h1]
  simp only [Nat.zero_add]
  rw [h2, Nat.add_zero]

/-- C8: in one tick of `keepUpdate` over pairwise distinct connected peers, with
the local height below 2^32: a peer in state ESTABLISH with
now − last_active > InfoUpdateDuration × KeepAliveTimeout seconds (strictly) is
disconnected once and sent no ping; a peer in state ESTABLISH for which this does
not hold is not disconnected and is sent exactly one ping, which carries the
local height; a peer in another state is neither disconnected nor pinged. -/
theorem keepUpdate_spec (D K : Int) (clock : Nat → Int) (height : Nat → Nat)
    (before : List Peer) (peer : Peer) (after : List Peer)
    (hdistinct : (before ++ peer :: after).Nodup)
    (hheight : height before.length < 2 ^ 32) :
    (peer.state = PeerState.ESTABLISH →
      clock before.length - peer.lastActive > Second * D * K →
        (keepUpdate D K clock height (before ++ peer :: after)).count
            (PeerCall.DisconnectPeer peer) = 1 ∧
        ∀ h, PeerCall.SendPing peer h ∉ keepUpdate D K clock height (before ++ peer :: after)) ∧
    (peer.state = PeerState.ESTABLISH →
      ¬ (clock before.length - peer.lastActive > Second * D * K) →
        PeerCall.DisconnectPeer peer ∉ keepUpdate D K clock height (before ++ peer :: after) ∧
        (keepUpdate D K clock height (before ++ peer :: after)).count
            (PeerCall.SendPing peer (height before.length)) = 1 ∧
        ∀ h, PeerCall.SendPing peer h ∈ keepUpdate D K clock height (before ++ peer :: after) →
          h = height before.length) ∧
    (peer.state ≠ PeerState.ESTABLISH →
      PeerCall.DisconnectPeer peer ∉ keepUpdate D K clock height (before ++ peer :: after) ∧
      ∀ h, PeerCall.SendPing peer h ∉ keepUpdate D K clock height (before ++ peer :: after)) := by
  have hcount := keepUpdate_calls_on D K clock height before peer after hdistinct
  have hmod : height before.length % 2 ^ 32 = height before.length := Nat.mod_eq_of_lt hheight
  have hmem : ∀ c : PeerCall, c.target = peer →
      (c ∈ keepUpdate D K clock height (before ++ peer :: after) ↔
        c ∈ keepUpdatePeer D K (clock before.length) (height before.length) peer) := by
    intro c hc
    rw [← List.count_pos_iff, ← List.count_pos_iff, hcount c hc]
  refine ⟨?_, ?_, ?_⟩
  · intro hst hlate
    have hlt : peer.lastActive < clock before.length + (-Second * D * K) := by
      have : -Second * D * K = -(Second * D * K) := by ring
      omega
    have hbody : keepUpdatePeer D K (clock before.length) (height before.length) peer
        = [PeerCall.DisconnectPeer peer] := by
      unfold keepUpdatePeer
      rw [if_pos hst, if_pos hlt]
    constructor
    · rw [hcount (PeerCall.DisconnectPeer peer) rfl, hbody]
      simp
    · intro h
      rw [hmem (PeerCall.SendPing peer h) rfl, hbody]
      simp
  · intro hst hlate
    have hlt : ¬ peer.lastActive < clock before.length + (-Second * D * K) := by
      have : -Second * D * K = -(Second * D * K) := by ring
      omega
    have hbody : keepUpdatePeer D K (clock before.length) (height before.length) peer
        = [PeerCall.SendPing peer (height before.length)] := by
      unfold keepUpdatePeer
      rw [if_pos hst, if_neg hlt, hmod]
    refine ⟨?_, ?_, ?_⟩
    · rw [hmem (PeerCall.DisconnectPeer peer) rfl, hbody]
      simp
    · rw [hcount (PeerCall.SendPing peer (height before.length)) rfl, hbody]
      simp
    · intro h hh
      rw [hmem (PeerCall.SendPing peer h) rfl, hbody] at hh
      simpa using hh
  · intro hst
    have hbody : keepUpdatePeer D K (clock before.length) (height before.length) peer = [] := by
      unfold keepUpdatePeer
      rw [if_neg hst]
    constructor
    · rw [hmem (PeerCall.DisconnectPeer peer) rfl, hbody]
      simp
    · intro h
      rw [hmem (PeerCall.SendPing peer h) rfl, hbody]
      simp

/-- A run of C8: of three connected peers the second has been silent for 16
seconds with a limit of 15 seconds. -/
theorem keepUpdate_spec_witness :
    (keepUpdate 5 3 (fun _ => 100 * Second) (fun _ => 7)
        ([⟨1, PeerState.ESTABLISH, 85 * Second⟩] ++
          ⟨2, PeerState.ESTABLISH, 84 * Second⟩ :: [⟨3, PeerState.HAND, 0⟩])).count
      (PeerCall.DisconnectPeer ⟨2, PeerState.ESTABLISH, 84 * Second⟩) = 1 ∧
    ∀ h, PeerCall.SendPing ⟨2, PeerState.ESTABLISH, 84 * Second⟩ h ∉
      keepUpdate 5 3 (fun _ => 100 * Second) (fun _ => 7)
        ([⟨1, PeerState.ESTABLISH, 85 * Second⟩] ++
          ⟨2, PeerState.ESTABLISH, 84 * Second⟩ :: [⟨3, PeerState.HAND, 0⟩]) :=
  (keepUpdate_spec 5 3 (fun _ => 100 * Second) (fun _ => 7)
    [⟨1, PeerState.ESTABLISH, 85 * Second⟩] ⟨2, PeerState.ESTABLISH, 84 * Second⟩
    [⟨3, PeerState.HAND, 0⟩] (by decide) (by decide)).1 rfl (by decide)

/-! ## Properties of the multi-output command -/

theorem scanOutputs_spec (parse : String → Option Int) (text : List String) (acc : List Output)
    (hlines : ∀ line ∈ text, 2 ≤ (Split line ',').length ∧
      (parse (TrimSpace ((Split line ',').getD 1 ""))).isSome) :
    ∃ outputs, List.Forall₂ (LineOutput parse) text outputs ∧
      scanOutputs parse text acc = .ok (acc ++ outputs) := by
  induction text generalizing acc with
  | nil => exact ⟨[], List.Forall₂.nil, by simp [scanOutputs]⟩
  | cons line rest ih =>
    obtain ⟨hlen, hsome⟩ := hlines line (List.mem_cons_self _ _)
    obtain ⟨amount, hamount⟩ := Option.isSome_iff_exists.mp hsome
    obtain ⟨outs, hrel, hscan⟩ :=
      ih (acc ++ [⟨TrimSpace ((Split line ',').getD 0 ""), amount⟩])
        (fun l hl => hlines l (List.mem_cons_of_mem _ hl))
    refine ⟨⟨TrimSpace ((Split line ',').getD 0 ""), amount⟩ :: outs,
      List.Forall₂.cons ⟨rfl, hamount⟩ hrel, ?_⟩
    have hnot : ¬ (Split line ',').length < 2 := by omega
    rw [scanOutputs]
    simp only [hnot, if_false, hamount]
    rw [hscan, List.append_assoc]
    rfl

theorem scanLines_of_short (data : List Char)
    (hshort : ∀ l ∈ rawLines data, byteLen l < MaxScanTokenSize) :
    scanLines data = (rawLines data).map (fun l => String.mk (dropCR l)) := by
  unfold scanLines
  congr 1
  rw [List.takeWhile_eq_self_iff]
  intro l hl
  simpa using hshort l hl

/-- Where the code does translate the file line by line: a file that is read to
its end, every line of which is shorter than `MaxScanTokenSize` bytes, has at
least two comma-separated columns and a second column that parses as an amount,
gives exactly one output per line, in the order of the lines, and this list is
handed to the wallet. -/
theorem createMultiOutputTransaction_short_lines (parse : String → Option Int) (data : String)
    (lockStr fromAddr : String) (fee : Int)
    (hshort : ∀ l ∈ rawLines data.data, byteLen l < MaxScanTokenSize)
    (hlines : ∀ line ∈ fileLines data, 2 ≤ (Split line ',').length ∧
      (parse (TrimSpace ((Split line ',').getD 1 ""))).isSome) :
    ∃ outputs, List.Forall₂ (LineOutput parse) (fileLines data) outputs ∧
      createMultiOutputTransaction parse (.content data none) lockStr fromAddr fee =
        (if lockStr = "" then .ok (.CreateMultiOutputTransaction fromAddr fee outputs)
         else
          match ParseUint32 lockStr with
          | none => .error .invalidLock
          | some lock => .ok (.CreateLockedMultiOutputTransaction fromAddr fee lock outputs)) := by
  obtain ⟨outputs, hrel, hscan⟩ := scanOutputs_spec parse (fileLines data) [] hlines
  rw [List.nil_append] at hscan
  refine ⟨outputs, hrel, ?_⟩
  have hall : scanLines data.data = fileLines data := scanLines_of_short data.data hshort
  simp only [createMultiOutputTransaction, hall, hscan]

theorem byteLen_append (l m : List Char) : byteLen (l ++ m) = byteLen l + byteLen m := by
  simp [byteLen]

theorem byteLen_replicate (n : Nat) (c : Char) :
    byteLen (List.replicate n c) = n * c.utf8Size := by
  induction n with
  | zero => simp [byteLen]
  | succ k ih =>
    rw [List.replicate_succ]
    have hcons : byteLen (c :: List.replicate k c) = c.utf8Size + byteLen (List.replicate k c) := by
      simp [byteLen]
    rw [hcons, ih]
    ring

theorem rawLines_paddedFile (blanks : List Char) (hbl : ∀ c ∈ blanks, c = ' ') :
    rawLines (paddedFile blanks).data
      = [['a', ',', '1'], blanks ++ ['b', ',', '2'], ['c', ',', '3']] := by
  have h1 : '\n' ∉ ['a', ',', '1'] := by decide
  have h3 : '\n' ∉ ['c', ',', '3'] := by decide
  have h2 : '\n' ∉ blanks ++ ['b', ',', '2'] := by
    intro hm
    rcases List.mem_append.mp hm with hm | hm
    · exact absurd (hbl _ hm) (by decide)
    · exact absurd hm (by decide)
  unfold rawLines paddedFile
  simp only []
  rw [AddrManager.splitChars_piece _ _ _ h1, AddrManager.splitChars_piece _ _ _ h2,
    AddrManager.splitChars_piece _ _ _ h3]
  rfl

theorem split_padded_line (blanks : List Char) (hbl : ∀ c ∈ blanks, c = ' ') :
    Split (String.mk (blanks ++ ['b', ',', '2'])) ','
      = [String.mk (blanks ++ ['b']), "2"] := by
  have hcomma : ',' ∉ blanks ++ ['b'] := by
    intro hm
    rcases List.mem_append.mp hm with hm | hm
    · exact absurd (hbl _ hm) (by decide)
    · exact absurd hm (by decide)
  have hchars : blanks ++ ['b', ',', '2'] = (blanks ++ ['b']) ++ ',' :: ['2'] := by simp
  unfold Split
  simp only []
  rw [hchars, AddrManager.splitChars_piece _ _ _ hcomma]
  rfl

/-- C9 (what the code does instead): in the file of the three lines `a,1`, `b,2`
after blanks, and `c,3`, every line has two comma-separated columns and a second
column that parses as an amount; when the blanks make the second line
`MaxScanTokenSize` bytes long or more, the scanner stops at that line, its error
is never read, and `createMultiOutputTransaction` hands the wallet the single
output of the first line: the second and the third line are dropped. -/
theorem createMultiOutputTransaction_drops_lines (blanks : List Char)
    (hbl : ∀ c ∈ blanks, c = ' ') (hlong : MaxScanTokenSize ≤ byteLen blanks) :
    (fileLines (paddedFile blanks)).length = 3 ∧
    (∀ line ∈ fileLines (paddedFile blanks), 2 ≤ (Split line ',').length ∧
      (sampleAmount (TrimSpace ((Split line ',').getD 1 ""))).isSome) ∧
    createMultiOutputTransaction sampleAmount (.content (paddedFile blanks) none) "" "me" 1
      = .ok (.CreateMultiOutputTransaction "me" 1 [⟨"a", 1⟩]) := by
  have hraw := rawLines_paddedFile blanks hbl
  have hcr : dropCR (blanks ++ ['b', ',', '2']) = blanks ++ ['b', ',', '2'] := by
    unfold dropCR
    have hlast : (blanks ++ ['b', ',', '2']).getLast? = some '2' := by
      rw [List.getLast?_append]
      rfl
    rw [hlast, if_neg (by decide)]
  have hfile : fileLines (paddedFile blanks)
      = ["a,1", String.mk (blanks ++ ['b', ',', '2']), "c,3"] := by
    unfold fileLines
    rw [hraw]
    simp only [List.map_cons, List.map_nil, hcr]
    rfl
  refine ⟨by rw [hfile]; rfl, ?_, ?_⟩
  · intro line hline
    rw [hfile] at hline
    simp only [List.mem_cons, List.mem_singleton, List.not_mem_nil, or_false] at hline
    rcases hline with rfl | rfl | rfl
    · decide
    · rw [split_padded_line blanks hbl]
      refine ⟨Nat.le_refl 2, ?_⟩
      show (sampleAmount (TrimSpace "2")).isSome = true
      decide
    · decide
  · have hscan : scanLines (paddedFile blanks).data = ["a,1"] := by
      unfold scanLines
      rw [hraw]
      have hshort : byteLen ['a', ',', '1'] < MaxScanTokenSize := by decide
      have hnot : ¬ byteLen (blanks ++ ['b', ',', '2']) < MaxScanTokenSize := by
        rw [byteLen_append]
        omega
      rw [List.takeWhile_cons, if_pos (by simpa using hshort), List.takeWhile_cons,
        if_neg (by simpa using hnot)]
      rfl
    simp only [createMultiOutputTransaction, hscan]
    rfl

/-- A run of C9: with 70000 blanks before `b,2` the wallet receives one output
for a file of three lines. -/
theorem createMultiOutputTransaction_drops_lines_witness :
    (fileLines (paddedFile (List.replicate 70000 ' '))).length = 3 ∧
    (∀ line ∈ fileLines (paddedFile (List.replicate 70000 ' ')),
      2 ≤ (Split line ',').length ∧
      (sampleAmount (TrimSpace ((Split line ',').getD 1 ""))).isSome) ∧
    createMultiOutputTransaction sampleAmount
        (.content (paddedFile (List.replicate 70000 ' ')) none) "" "me" 1
      = .ok (.CreateMultiOutputTransaction "me" 1 [⟨"a", 1⟩]) :=
  createMultiOutputTransaction_drops_lines (List.replicate 70000 ' ')
    (fun _ hc => List.eq_of_mem_replicate hc)
    (by rw [byteLen_replicate]; decide)

/-! ## Properties of the seed addresses -/

theorem lastIndexChars_not_mem (c : Char) (l : List Char) (i : Nat) (best : Int) (h : c ∉ l) :
    lastIndexChars c l i best = best := by
  induction l generalizing i best with
  | nil => rfl
  | cons x xs ih =>
    have hx : ¬ x = c := fun e => h (e ▸ List.mem_cons_self _ _)
    rw [lastIndexChars, if_neg hx]
    exact ih _ _ (fun m => h (List.mem_cons_of_mem _ m))

theorem lastIndexChars_last (c : Char) (pre post : List Char) (i : Nat) (best : Int)
    (h : c ∉ post) : lastIndexChars c (pre ++ c :: post) i best = ((i + pre.length : Nat) : Int) := by
  induction pre generalizing i best with
  | nil =>
    rw [List.nil_append, lastIndexChars, if_pos rfl, lastIndexChars_not_mem c post _ _ h]
    simp
  | cons x xs ih =>
    rw [List.cons_append, lastIndexChars, ih]
    simp only [List.length_cons]
    congr 1
    omega

theorem LastIndex_split (host port : String) (h : ':' ∉ port.data) :
    LastIndex (host ++ ":" ++ port) ':' = (host.data.length : Int) := by
  unfold LastIndex
  have hd : (host ++ ":" ++ port).data = host.data ++ ':' :: port.data := by
    simp [String.data_append]
  rw [hd, lastIndexChars_last _ _ _ _ _ h]
  simp

theorem SPVAddrOf_one (SPVServerPort : Nat) (seed : String) :
    SPVAddrOf SPVServerPort seed
      (if LastIndex seed ':' > 0 then
        String.mk (seed.data.take (LastIndex seed ':').toNat) ++ ":" ++ toString SPVServerPort
       else seed ++ ":" ++ toString SPVServerPort) := by
  refine ⟨?_, ?_, ?_, ?_⟩
  · intro host port hseed hport hhost
    have hidx := LastIndex_split host port hport
    have hpos : 0 < host.data.length := by
      rcases Nat.eq_zero_or_pos host.data.length with h0 | hp
      · exact absurd (String.ext (by simpa using List.length_eq_zero.mp h0)) hhost
      · exact hp
    rw [hseed, hidx, if_pos (by exact_mod_cast hpos)]
    have htake : (host ++ ":" ++ port).data.take ((host.data.length : Int)).toNat = host.data := by
      simp [String.data_append]
    rw [htake]
  · intro port hseed hport
    have hidx := LastIndex_split "" port hport
    have hempty : ("" : String) ++ ":" ++ port = ":" ++ port := by
      apply String.ext
      simp [String.data_append]
    rw [hempty] at hidx
    rw [hseed, hidx]
    simp
  · intro hno
    have hidx : LastIndex seed ':' = -1 := lastIndexChars_not_mem _ _ _ _ hno
    rw [hidx]
    simp
  · split
    · exact ⟨_, rfl⟩
    · exact ⟨_, rfl⟩

/-- C10: for every list of seed addresses `toSPVAddr` returns a list of the same
length whose i-th element is made from the i-th seed: the text before the last
colon of the seed when that colon is not the first character, and the whole seed
otherwise (a seed without a colon included), followed by a colon and
`SPVServerPort` in decimal; so every returned address ends with a colon and
`SPVServerPort`. -/
theorem toSPVAddr_spec (SPVServerPort : Nat) (seeds : List String) :
    (toSPVAddr SPVServerPort seeds).length = seeds.length ∧
    List.Forall₂ (SPVAddrOf SPVServerPort) seeds (toSPVAddr SPVServerPort seeds) := by
  refine ⟨by simp [toSPVAddr], ?_⟩
  induction seeds with
  | nil => exact List.Forall₂.nil
  | cons seed rest ih =>
    exact List.Forall₂.cons (SPVAddrOf_one SPVServerPort seed) ih

/-! ## Properties of the transaction table -/

namespace TxsDB

theorem scanRows_spec {Tx : Type} (c : TxCodec Tx) (rows : List TxRow) (acc : List (StoreTx Tx))
    (hwf : ∀ r ∈ rows, WellFormed c r) :
    ∃ txns, List.Forall₂ (Stored c) rows txns ∧ scanRows c rows acc = .ok (acc ++ txns) := by
  induction rows generalizing acc with
  | nil => exact ⟨[], List.Forall₂.nil, by simp [scanRows]⟩
  | cons row rest ih =>
    obtain ⟨hlen, hheight, tx, htx⟩ := hwf row (List.mem_cons_self _ _)
    obtain ⟨txns, hrel, hscan⟩ :=
      ih (acc ++ [{ TxId := ⟨row.Hash, hlen⟩, Height := row.Height, Data := tx }])
        (fun r hr => hwf r (List.mem_cons_of_mem _ hr))
    refine ⟨{ TxId := ⟨row.Hash, hlen⟩, Height := row.Height, Data := tx } :: txns,
      List.Forall₂.cons ⟨rfl, rfl, htx⟩ hrel, ?_⟩
    have hid : Uint256FromBytes row.Hash = .ok ⟨row.Hash, hlen⟩ := by
      unfold Uint256FromBytes
      rw [dif_pos hlen]
    rw [scanRows, if_pos hheight]
    simp only [hid, htx]
    rw [hscan, List.append_assoc]
    rfl

/-- C11 as stated fails: asked for the height `math.MaxUint32`, `GetAllFrom` returns
a transaction that is stored at height 5. -/
theorem GetAllFrom_max_returns_all :
    ∃ txns, GetAllFrom sampleTxCodec [⟨List.replicate 32 1, 5, [1]⟩] 4294967295 = .ok txns ∧
      ∃ stx ∈ txns, stx.Height ≠ 4294967295 :=
  ⟨[{ TxId := ⟨List.replicate 32 1, rfl⟩, Height := 5, Data := [1] }], rfl,
    { TxId := ⟨List.replicate 32 1, rfl⟩, Height := 5, Data := [1] },
    List.mem_singleton.mpr rfl, by decide⟩

/-- C11 (amended): on a table of rows as `Put` writes them, for every height h other
than `math.MaxUint32` `GetAllFrom h` returns, in the order of the rows, exactly one
stored transaction for each row whose height is h, with the hash, the height and
the deserialized data of the row; `GetAllFrom math.MaxUint32` and `GetAll` return
one stored transaction for every row, whatever its height. -/
theorem GetAllFrom_spec {Tx : Type} (c : TxCodec Tx) (t : TxTable)
    (hwf : ∀ r ∈ t, WellFormed c r) (h : Nat) :
    (∃ txns, GetAllFrom c t h = .ok txns ∧
      List.Forall₂ (Stored c)
        (if h ≠ MaxUint32 then t.filter (fun r => r.Height == h) else t) txns ∧
      (h ≠ MaxUint32 → ∀ stx ∈ txns, stx.Height = h)) ∧
    ∃ all, GetAll c t = .ok all ∧ List.Forall₂ (Stored c) t all := by
  have hsub : ∀ r ∈ (if h ≠ MaxUint32 then t.filter (fun r => r.Height == h) else t),
      WellFormed c r := by
    intro r hr
    split at hr
    · exact hwf r (List.mem_of_mem_filter hr)
    · exact hwf r hr
  obtain ⟨txns, hrel, hscan⟩ := scanRows_spec c _ [] hsub
  obtain ⟨all, hrelAll, hscanAll⟩ := scanRows_spec c t [] hwf
  rw [List.nil_append] at hscan hscanAll
  refine ⟨⟨txns, hscan, hrel, ?_⟩, all, ?_, hrelAll⟩
  · intro hne stx hstx
    rw [if_pos hne] at hrel
    obtain ⟨row, hrow, hst⟩ : ∃ row ∈ t.filter (fun r => r.Height == h), Stored c row stx := by
      have := List.forall₂_iff_zip.mp hrel
      obtain ⟨i, hi, rfl⟩ := List.getElem_of_mem hstx
      have hi2 : i < (t.filter (fun r => r.Height == h)).length := by rw [this.1]; exact hi
      refine ⟨(t.filter (fun r => r.Height == h))[i], List.getElem_mem _, ?_⟩
      apply this.2
      rw [List.mem_iff_getElem]
      refine ⟨i, by simp [hi, hi2], ?_⟩
      simp
    have hh : row.Height = h := by simpa using (List.mem_filter.mp hrow).2
    rw [hst.2.1, hh]
  · unfold GetAll GetAllFrom
    simp only [ne_eq, not_true_eq_false, if_false]
    exact hscanAll

/-- A run of the amended C11: three stored transactions, two of them at height 5. -/
theorem GetAllFrom_spec_witness :
    (∃ txns, GetAllFrom sampleTxCodec
        [⟨List.replicate 32 1, 5, [1, 2]⟩, ⟨List.replicate 32 2, 7, [2]⟩,
          ⟨List.replicate 32 3, 5, [3]⟩] 5 = .ok txns ∧
      List.Forall₂ (Stored sampleTxCodec)
        (if 5 ≠ MaxUint32 then
          ([⟨List.replicate 32 1, 5, [1, 2]⟩, ⟨List.replicate 32 2, 7, [2]⟩,
            ⟨List.replicate 32 3, 5, [3]⟩] : TxTable).filter (fun r => r.Height == 5)
         else [⟨List.replicate 32 1, 5, [1, 2]⟩, ⟨List.replicate 32 2, 7, [2]⟩,
            ⟨List.replicate 32 3, 5, [3]⟩]) txns ∧
      (5 ≠ MaxUint32 → ∀ stx ∈ txns, stx.Height = 5)) ∧
    ∃ all, GetAll sampleTxCodec
        [⟨List.replicate 32 1, 5, [1, 2]⟩, ⟨List.replicate 32 2, 7, [2]⟩,
          ⟨List.replicate 32 3, 5, [3]⟩] = .ok all ∧
      List.Forall₂ (Stored sampleTxCodec)
        [⟨List.replicate 32 1, 5, [1, 2]⟩, ⟨List.replicate 32 2, 7, [2]⟩,
          ⟨List.replicate 32 3, 5, [3]⟩] all :=
  GetAllFrom_spec sampleTxCodec
    [⟨List.replicate 32 1, 5, [1, 2]⟩, ⟨List.replicate 32 2, 7, [2]⟩,
      ⟨List.replicate 32 3, 5, [3]⟩]
    (by
      intro r hr
      simp only [List.mem_cons, List.mem_singleton, List.not_mem_nil, or_false] at hr
      rcases hr with rfl | rfl | rfl <;>
        exact ⟨rfl, by decide, _, rfl⟩)
    5

theorem find_insertOrReplace (t : TxTable) (row : TxRow) :
    (insertOrReplace t row).find? (fun r => r.Hash == row.Hash) = some row := by
  unfold insertOrReplace
  rw [List.find?_append]
  have hnone : (t.filter (fun r => r.Hash != row.Hash)).find? (fun r => r.Hash == row.Hash)
      = none := by
    rw [List.find?_eq_none]
    intro r hr
    have := (List.mem_filter.mp hr).2
    simpa using this
  rw [hnone]
  simp

theorem insertOrReplace_hashes (t : TxTable) (row : TxRow)
    (hkey : (t.map TxRow.Hash).Nodup) : ((insertOrReplace t row).map TxRow.Hash).Nodup := by
  unfold insertOrReplace
  rw [List.map_append, List.nodup_append]
  refine ⟨(List.Sublist.map _ (List.filter_sublist t)).nodup hkey, List.nodup_singleton _, ?_⟩
  intro k hk hk2
  obtain ⟨r, hr, rfl⟩ := List.mem_map.mp hk
  have hne := (List.mem_filter.mp hr).2
  have heq : r.Hash = row.Hash := by simpa using hk2
  simp [heq] at hne

/-- C12 as stated fails: the sample codec deserializes what it serializes, yet
the transaction whose unsigned serialization is empty is refused by the column
`RawData BLOB NOT NULL`: `Put` returns the error and `Get` finds no row. -/
theorem Put_rejects_empty_serialization :
    (∀ tx, ∃ bytes, sampleTxCodec.SerializeUnsigned tx = .ok bytes ∧
      sampleTxCodec.DeserializeUnsigned bytes = .ok (id tx)) ∧
    Put sampleTxCodec [] (NewStoreTx sampleTxCodec [] 8)
      = .error "NOT NULL constraint failed: TXNs.RawData" ∧
    Get sampleTxCodec [] (sampleTxCodec.Hash [])
      = .error "sql: no rows in result set" :=
  ⟨fun tx => ⟨tx, rfl, rfl⟩, rfl, rfl⟩

/-- C12 (amended): with `DeserializeUnsigned` undoing `SerializeUnsigned` up to the
unsigned part of a transaction, for every table, every transaction tx whose
unsigned serialization is not empty and every height h (a `uint32`),
`Put (NewStoreTx tx h)` succeeds and afterwards `Get (tx.Hash())` returns the record
with `TxId` = tx.Hash(), `Height` = h and `Data` = the unsigned part of tx; the
table then holds exactly one row with that hash, the rows of the other hashes are
those it held before, and a table without two rows of the same hash stays so. -/
theorem Put_Get_round_trip {Tx : Type} (c : TxCodec Tx) (unsignedPart : Tx → Tx)
    (hround : ∀ tx, ∃ bytes, c.SerializeUnsigned tx = .ok bytes ∧
      c.DeserializeUnsigned bytes = .ok (unsignedPart tx))
    (t : TxTable) (tx : Tx) (h : Nat) (hh : h < 2 ^ 32)
    (hbytes : ∀ bytes, c.SerializeUnsigned tx = .ok bytes → bytes ≠ []) :
    ∃ t2, Put c t (NewStoreTx c tx h) = .ok t2 ∧
      Get c t2 (c.Hash tx) = .ok { TxId := c.Hash tx, Height := h, Data := unsignedPart tx } ∧
      (t2.filter (fun r => r.Hash == (c.Hash tx).val)).length = 1 ∧
      t2.filter (fun r => r.Hash != (c.Hash tx).val)
        = t.filter (fun r => r.Hash != (c.Hash tx).val) ∧
      ((t.map TxRow.Hash).Nodup → (t2.map TxRow.Hash).Nodup) := by
  obtain ⟨bytes, hser, hdes⟩ := hround tx
  have hne : bytes ≠ [] := hbytes bytes hser
  have hraw : ¬ bytes.length = 0 := fun e => hne (List.length_eq_zero.mp e)
  have hhash : ¬ (c.Hash tx).val.length = 0 := by
    rw [(c.Hash tx).property]
    decide
  refine ⟨insertOrReplace t ⟨(c.Hash tx).val, h, bytes⟩, ?_, ?_, ?_, ?_, ?_⟩
  · simp only [Put, NewStoreTx, hser, execInsertOrReplace]
    rw [if_neg hhash, if_neg hraw]
  · unfold Get
    have := find_insertOrReplace t ⟨(c.Hash tx).val, h, bytes⟩
    simp only at this
    rw [this]
    simp only [hh, if_true, hdes]
  · unfold insertOrReplace
    rw [List.filter_append, List.filter_filter]
    have hnil : t.filter (fun r => (r.Hash == (c.Hash tx).val) && (r.Hash != (c.Hash tx).val))
        = [] := by
      rw [List.filter_eq_nil_iff]
      intro r _
      simp
    rw [hnil]
    simp
  · unfold insertOrReplace
    rw [List.filter_append, List.filter_filter]
    simp
  · exact insertOrReplace_hashes t _

/-- A run of the amended C12: a transaction stored again at another height
replaces its row. -/
theorem Put_Get_round_trip_witness :
    ∃ t2, Put sampleTxCodec [⟨List.replicate 32 2, 7, [2]⟩] (NewStoreTx sampleTxCodec [2, 9] 8)
        = .ok t2 ∧
      Get sampleTxCodec t2 (sampleTxCodec.Hash [2, 9])
        = .ok { TxId := sampleTxCodec.Hash [2, 9], Height := 8, Data := [2, 9] } ∧
      (t2.filter (fun r => r.Hash == (sampleTxCodec.Hash [2, 9]).val)).length = 1 ∧
      t2.filter (fun r => r.Hash != (sampleTxCodec.Hash [2, 9]).val)
        = ([⟨List.replicate 32 2, 7, [2]⟩] : TxTable).filter
            (fun r => r.Hash != (sampleTxCodec.Hash [2, 9]).val) ∧
      ((([⟨List.replicate 32 2, 7, [2]⟩] : TxTable).map TxRow.Hash).Nodup →
        (t2.map TxRow.Hash).Nodup) :=
  Put_Get_round_trip sampleTxCodec id (fun tx => ⟨tx, rfl, rfl⟩)
    [⟨List.replicate 32 2, 7, [2]⟩] [2, 9] 8 (by decide)
    (fun bytes hb => by
      have : bytes = [2, 9] := by
        have h2 : (Except.ok [2, 9] : Except String (List UInt8)) = .ok bytes := hb
        injection h2 with h3
        exact h3.symm
      rw [this]
      decide)

end TxsDB

/-! ## Properties of the message dispatch -/

theorem MakeMessage_handled (cmd : String) (m : Message) (h : MakeMessage cmd = .ok m) :
    ∃ handler, HandleMessage m = .ok handler := by
  unfold MakeMessage at h
  repeat' split at h
  all_goals first
    | (cases h; exact ⟨_, rfl⟩)
    | cases h

/-- C13: `MakeMessage cmd` returns a message and no error exactly when cmd is one
of "ping", "pong", "inv", "tx", "merkleblock", "notfound", the message being the
empty value of the matching variant; for every other command it returns an error
and no message; and `HandleMessage` passes every message `MakeMessage` returns to
a handler, never to its branch for an unknown type. -/
theorem MakeMessage_spec :
    MakeMessage "ping" = .ok (Message.Ping 0) ∧
    MakeMessage "pong" = .ok (Message.Pong 0) ∧
    MakeMessage "inv" = .ok (Message.Inventory []) ∧
    MakeMessage "tx" = .ok (Message.Transaction []) ∧
    MakeMessage "merkleblock" = .ok (Message.MerkleBlock []) ∧
    MakeMessage "notfound" = .ok (Message.NotFound []) ∧
    (∀ cmd, cmd ∉ ["ping", "pong", "inv", "tx", "merkleblock", "notfound"] →
      MakeMessage cmd = .error ("Received unsupported message, CMD " ++ cmd)) ∧
    (∀ cmd, (∃ m, MakeMessage cmd = .ok m) ↔
      cmd ∈ ["ping", "pong", "inv", "tx", "merkleblock", "notfound"]) ∧
    (∀ cmd m, MakeMessage cmd = .ok m →
      HandleMessage m ≠ .error "handle message unknown type") := by
  have hother : ∀ cmd, cmd ∉ ["ping", "pong", "inv", "tx", "merkleblock", "notfound"] →
      MakeMessage cmd = .error ("Received unsupported message, CMD " ++ cmd) := by
    intro cmd hcmd
    simp only [List.mem_cons, List.mem_singleton, List.not_mem_nil, or_false, not_or] at hcmd
    obtain ⟨h1, h2, h3, h4, h5, h6⟩ := hcmd
    unfold MakeMessage
    rw [if_neg h1, if_neg h2, if_neg h3, if_neg h4, if_neg h5, if_neg h6]
  refine ⟨rfl, rfl, rfl, rfl, rfl, rfl, hother, ?_, ?_⟩
  · intro cmd
    constructor
    · rintro ⟨m, hm⟩
      by_contra hcmd
      rw [hother cmd hcmd] at hm
      cases hm
    · intro hcmd
      simp only [List.mem_cons, List.mem_singleton, List.not_mem_nil, or_false] at hcmd
      rcases hcmd with rfl | rfl | rfl | rfl | rfl | rfl
      · exact ⟨_, rfl⟩
      · exact ⟨_, rfl⟩
      · exact ⟨_, rfl⟩
      · exact ⟨_, rfl⟩
      · exact ⟨_, rfl⟩
      · exact ⟨_, rfl⟩
  · intro cmd m hm hbad
    obtain ⟨handler, hh⟩ := MakeMessage_handled cmd m hm
    rw [hh] at hbad
    cases hbad

/-! ## Idle addresses for a count of zero -/

namespace AddrManager

/-- C14 (what the code does instead): for every state in which some seed or
cached address is not connected, and every order of iteration of the map,
`GetIdleAddrs 0` allocates a slice of length 0, decrements the count to -1 in the
first iteration and fails with an index out of range when it writes. -/
theorem GetIdleAddrs_zero_panics (am : AddrManager) (order : List String)
    (horder : order.Perm (addrMapKeys am)) (hidle : (idleSet am).Nonempty) :
    GetIdleAddrs am order 0 = .error "index out of range" := by
  have hlen : order.length = (idleSet am).card := by
    rw [horder.length_eq, length_addrMapKeys]
  have hpos : 0 < (idleSet am).card := Finset.card_pos.mpr hidle
  cases order with
  | nil => simp at hlen; omega
  | cons addr rest =>
    unfold GetIdleAddrs
    have hcount : ¬ ((0 : Int) > ((addrMapKeys am).length : Int)) := by omega
    simp only [hcount, if_false]
    have hneg : ¬ ((0 : Int) < 0) := by omega
    rw [if_neg hneg, idleLoop]
    simp

/-- A run of C14: one seed, nothing connected, zero addresses asked. -/
theorem GetIdleAddrs_zero_panics_witness :
    GetIdleAddrs ⟨["s1"], [], []⟩ ["s1"] 0 = .error "index out of range" :=
  GetIdleAddrs_zero_panics ⟨["s1"], [], []⟩ ["s1"] (by decide) ⟨"s1", by decide⟩

end AddrManager

/-! ## Errors of reading all proofs -/

namespace ProofsDB

theorem forEachProof_length {Proof : Type} (c : ProofCodec Proof) (b : Bucket)
    (acc : List Proof) (hbad : ∃ kv ∈ b, ∃ e, c.deserialize kv.2 = .error e) :
    (forEachProof c b acc).1.length < acc.length + b.length := by
  induction b generalizing acc with
  | nil =>
    obtain ⟨kv, hkv, _⟩ := hbad
    simp at hkv
  | cons kv rest ih =>
    cases hd : c.deserialize kv.2 with
    | error e =>
      simp [forEachProof, deserializeProof, hd]
    | ok proof =>
      have hrest : ∃ kv2 ∈ rest, ∃ e, c.deserialize kv2.2 = .error e := by
        obtain ⟨kv2, hkv2, e, he⟩ := hbad
        rcases List.mem_cons.mp hkv2 with rfl | hin
        · rw [hd] at he; cases he
        · exact ⟨kv2, hin, e, he⟩
      have hlt := ih (acc ++ [proof]) hrest
      have hacc : (acc ++ [proof]).length = acc.length + 1 := by simp
      rw [hacc] at hlt
      simp only [forEachProof, deserializeProof, hd, List.length_cons]
      omega

/-- C15 (what the code does instead): the error of the read transaction is
dropped by the final `return proofs, nil`; whenever a record of the bucket fails
to deserialize, `GetAll` still returns a nil error, with a list that has fewer
proofs than the bucket has records. -/
theorem GetAll_hides_failure {Proof : Type} (c : ProofCodec Proof) (db : BoltDB) (b : Bucket)
    (hb : db.bucket BKTProofs = some b)
    (hbad : ∃ kv ∈ b, ∃ e, c.deserialize kv.2 = .error e) :
    ∃ proofs, GetAll c db = .ok proofs ∧ proofs.length < b.length := by
  refine ⟨(forEachProof c b []).1, ?_, ?_⟩
  · simp [GetAll, hb]
  · simpa using forEachProof_length c b [] hbad

/-- A run of C15: the second of three records is empty and does not deserialize;
`GetAll` returns the first proof alone and no error. -/
theorem GetAll_hides_failure_witness :
    ∃ proofs, GetAll strictCodec ⟨[("Proofs", [([1], [1]), ([2], []), ([3], [3])])]⟩ = .ok proofs ∧
      proofs.length < ([([1], [1]), ([2], []), ([3], [3])] : Bucket).length :=
  GetAll_hides_failure strictCodec ⟨[("Proofs", [([1], [1]), ([2], []), ([3], [3])])]⟩
    [([1], [1]), ([2], []), ([3], [3])] rfl
    ⟨([2], []), by decide, "EOF", rfl⟩

end ProofsDB

/-! ## The invariant of the cached list -/

namespace AddrManager

theorem discardLoop_sublist (a : String) (before l c : List String)
    (h : discardLoop a before l = some c) : ∃ kept, c = before ++ kept ∧ kept.Sublist l := by
  induction l generalizing before with
  | nil => simp [discardLoop] at h
  | cons x xs ih =>
    unfold discardLoop at h
    split at h
    · cases h
      exact ⟨xs, rfl, List.sublist_cons_self _ _⟩
    · obtain ⟨kept, hc, hsub⟩ := ih _ h
      exact ⟨x :: kept, by rw [hc]; simp, hsub.cons₂ x⟩

theorem CachedInv_sublist (am am2 : AddrManager) (hinv : CachedInv am)
    (hsub : am2.cached.Sublist am.cached) (hseeds : am2.seeds = am.seeds) : CachedInv am2 :=
  ⟨hsub.nodup hinv.1, fun a ha => hseeds ▸ hinv.2 a (hsub.subset ha)⟩

theorem step_inv (st : AddrManager × Option String) (op : Op) (hinv : CachedInv st.1) :
    CachedInv (step st op).1 ∧ (step st op).1.seeds = st.1.seeds := by
  cases op with
  | AddAddr addr os =>
    show CachedInv (AddAddr st.1 os st.2 addr).1 ∧ (AddAddr st.1 os st.2 addr).1.seeds = _
    by_cases h : addr ∉ st.1.seeds ∧ addr ∉ st.1.cached
    · rw [AddAddr_new st.1 os st.2 addr h]
      refine ⟨⟨?_, ?_⟩, rfl⟩
      · show (st.1.cached ++ [addr]).Nodup
        rw [List.nodup_append]
        refine ⟨hinv.1, List.nodup_singleton _, ?_⟩
        intro x hx hx2
        exact h.2 (List.mem_singleton.mp hx2 ▸ hx)
      · intro x hx
        show x ∉ st.1.seeds
        rcases List.mem_append.mp hx with hx | hx
        · exact hinv.2 x hx
        · rw [List.mem_singleton.mp hx]
          exact h.1
    · rw [AddAddr_known st.1 os st.2 addr h]
      exact ⟨hinv, rfl⟩
  | DiscardAddr addr os =>
    show CachedInv (DiscardAddr st.1 os st.2 addr).1 ∧ (DiscardAddr st.1 os st.2 addr).1.seeds = _
    unfold DiscardAddr
    cases hloop : discardLoop addr [] st.1.cached with
    | none => exact ⟨hinv, rfl⟩
    | some cached =>
      obtain ⟨kept, hc, hsub⟩ := discardLoop_sublist addr [] st.1.cached cached hloop
      refine ⟨CachedInv_sublist st.1 _ hinv ?_ rfl, rfl⟩
      show cached.Sublist st.1.cached
      rw [hc]
      simpa using hsub
  | DisconnectedAddr addr =>
    exact ⟨hinv, rfl⟩

/-- C16: if the cached list has no address twice and shares no address with
seeds, the same holds after each of `AddAddr a`, `DiscardAddr a` and
`DisconnectedAddr a`, none of which changes seeds; hence every state reached by a
sequence of these calls keeps cached free of duplicates and disjoint from seeds. -/
theorem CachedInv_preserved (am : AddrManager) (file : Option String) (hinv : CachedInv am) :
    (∀ a os, CachedInv (AddAddr am os file a).1 ∧ (AddAddr am os file a).1.seeds = am.seeds) ∧
    (∀ a os, CachedInv (DiscardAddr am os file a).1 ∧
      (DiscardAddr am os file a).1.seeds = am.seeds) ∧
    (∀ a, CachedInv (DisconnectedAddr am a) ∧ (DisconnectedAddr am a).seeds = am.seeds) ∧
    ∀ ops, CachedInv (run (am, file) ops).1 ∧ (run (am, file) ops).1.seeds = am.seeds := by
  refine ⟨fun a os => step_inv (am, file) (Op.AddAddr a os) hinv,
    fun a os => step_inv (am, file) (Op.DiscardAddr a os) hinv,
    fun a => step_inv (am, file) (Op.DisconnectedAddr a) hinv, ?_⟩
  intro ops
  suffices hgen : ∀ (st : AddrManager × Option String), CachedInv st.1 →
      CachedInv (run st ops).1 ∧ (run st ops).1.seeds = st.1.seeds from hgen (am, file) hinv
  induction ops with
  | nil => intro st hst; exact ⟨hst, rfl⟩
  | cons op rest ih =>
    intro st hst
    obtain ⟨h1, h2⟩ := step_inv st op hst
    obtain ⟨h3, h4⟩ := ih (step st op) h1
    exact ⟨h3, h4.trans h2⟩

/-- A run of C16: from seeds s1 and cached p1, a seed, a cached and a new address
are added, one is discarded and one disconnected. -/
theorem CachedInv_preserved_witness :
    CachedInv (run (⟨["s1"], ["p1"], []⟩, none)
      [Op.AddAddr "s1" .ok, Op.AddAddr "p1" .ok, Op.AddAddr "p2" .ok,
        Op.DiscardAddr "p1" .ok, Op.DisconnectedAddr "s1"]).1 ∧
    (run (⟨["s1"], ["p1"], []⟩, none)
      [Op.AddAddr "s1" .ok, Op.AddAddr "p1" .ok, Op.AddAddr "p2" .ok,
        Op.DiscardAddr "p1" .ok, Op.DisconnectedAddr "s1"]).1.seeds = ["s1"] :=
  (CachedInv_preserved ⟨["s1"], ["p1"], []⟩ none ⟨by decide, by decide⟩).2.2.2 _

end AddrManager

end ElaSPV
